import Mathlib

/-!
Verification of the textprompts core: the placeholder scanner, the validated
template (PromptString.format with strict and partial modes), the front-matter
splitter, and the metadata-mode file parser.

Texts are modelled as `List Char` (Python `str` indexing is by code point, so
a list of characters is a faithful model). Python functions that can raise
return `Except`. The CPython pieces the repository calls (str.format,
str.strip, str.find, str.replace, textwrap.dedent) are embedded alongside the
repository's own functions; str.format is modelled for string-valued
arguments, with attribute access, index access and conversion flags treated
as plain field-name characters, and nested replacement fields in a format
spec resolved one level deep (no spec inside a nested field).
-/

namespace Textprompts

abbrev Chars := List Char

/-- Python whitespace (ASCII): the characters stripped by str.strip(). -/
def isPyWs (c : Char) : Bool :=
  c == ' ' || c == '\t' || c == '\n' || c == '\r' || c == '\x0b' || c == '\x0c'

/-- Python str.strip(): remove leading and trailing whitespace. -/
def pyStrip (s : Chars) : Chars :=
  ((s.dropWhile isPyWs).reverse.dropWhile isPyWs).reverse

/-- Python str.lstrip with a newline argument: remove leading newline
characters only. -/
def lstripNl (s : Chars) : Chars :=
  s.dropWhile (· == '\n')

/-- Helper for Python str.find: first index at or after `i` where `pat`
starts in the remaining text (the original text with its first `i`
characters dropped). -/
def findAux (pat : Chars) : Chars → Nat → Option Nat
  | [], i => if pat.isPrefixOf [] then some i else none
  | c :: t, i => if pat.isPrefixOf (c :: t) then some i else findAux pat t (i + 1)

/-- Python str.find(pat, start): index of the first occurrence of `pat`
beginning at or after `start`, or none (Python returns -1). -/
def findSub (pat s : Chars) (start : Nat) : Option Nat :=
  findAux pat (s.drop start) start

/-- Helper for Python str.replace: scan left to right; `skip` counts
characters of an already-matched occurrence still to be dropped. -/
def replAux (pat rep : Chars) : Chars → Nat → Chars
  | [], _ => []
  | _ :: t, k + 1 => replAux pat rep t k
  | c :: t, 0 =>
    if pat.isPrefixOf (c :: t) ∧ pat ≠ [] then
      rep ++ replAux pat rep t (pat.length - 1)
    else
      c :: replAux pat rep t 0

/-- Python str.replace(pat, rep): replace every non-overlapping occurrence,
left to right. The repository only calls it with non-empty patterns; for
the empty pattern this model returns the text unchanged. -/
def replaceAll (pat rep s : Chars) : Chars :=
  replAux pat rep s 0

/-- Boolean substring test, Python `pat in s`. -/
def containsSub (pat s : Chars) : Bool :=
  (findSub pat s 0).isSome

/-- Decimal digits of a natural number, Python str(i). -/
def strOfNat (n : Nat) : Chars :=
  (Nat.repr n).data

/-- Python int(...) on a string of decimal digits. -/
def natOfDigits (s : Chars) : Nat :=
  s.foldl (fun a c => a * 10 + (c.toNat - 48)) 0

/-- Lexicographic comparison of texts by code point, as Python compares
strings. -/
def lexLe : Chars → Chars → Bool
  | [], _ => true
  | _ :: _, [] => false
  | a :: as, b :: bs => if a = b then lexLe as bs else decide (a.toNat < b.toNat)

/-- Insertion into a sorted list, for modelling Python sorted(). -/
def insertSorted (x : Chars) : List Chars → List Chars
  | [] => [x]
  | y :: ys => if lexLe x y then x :: y :: ys else y :: insertSorted x ys

/-- Python sorted() on a list of strings. -/
def sortNames (l : List Chars) : List Chars :=
  l.foldr insertSorted []

/-! ## The placeholder scanner (placeholder_utils.extract_placeholders) -/

/-- The marker the source substitutes for an escaped opening brace. -/
def escOpen : Chars := '\x00' :: "ESCAPED_OPEN".data ++ ['\x00']

/-- The marker the source substitutes for an escaped closing brace. -/
def escClose : Chars := '\x00' :: "ESCAPED_CLOSE".data ++ ['\x00']

/-- A character the scanner's regex allows inside a placeholder name:
anything but a closing brace or a colon. -/
def scanNameChar (c : Char) : Bool :=
  c != '}' && c != ':'

/-- State of the single-pass scan equivalent to re.findall of the source's
pattern: outside any group, inside a group collecting the name (held
reversed), or inside a group past the colon of a format spec. -/
inductive ScanSt
  | outside
  | name (acc : Chars)
  | spec (acc : Chars)

/-- One pass of re.findall for the pattern of the source: an opening brace,
a name of characters other than a closing brace or colon, an optional
colon-prefixed run of characters other than a closing brace, and a closing
brace. An unterminated group reaches the end of the text and contributes
nothing; the regex engine's restart one character past a failed opening
brace finds no further match there because the failure consumed every
closing brace and colon up to the end, so returning nothing is faithful. -/
def scanGo : Chars → ScanSt → List Chars
  | [], _ => []
  | c :: rest, .outside =>
    if c = '{' then scanGo rest (.name []) else scanGo rest .outside
  | c :: rest, .name acc =>
    if c = '}' then acc.reverse :: scanGo rest .outside
    else if c = ':' then scanGo rest (.spec acc)
    else scanGo rest (.name (c :: acc))
  | c :: rest, .spec acc =>
    if c = '}' then acc.reverse :: scanGo rest .outside
    else scanGo rest (.spec acc)

/-- placeholder_utils.extract_placeholders: replace escaped braces by the
markers (opening first, then closing, as the source does), find all
placeholder patterns, and return the set of names. The Python set is
modelled as a duplicate-free list; its iteration order is unspecified in
Python, here it is the order List.dedup produces. -/
def extract_placeholders (text : Chars) : List Chars :=
  (scanGo (replaceAll ['}', '}'] escClose (replaceAll ['{', '{'] escOpen text)) .outside).dedup

example : extract_placeholders "Hello \x7bname\x7d!".data = ["name".data] := by decide

example : extract_placeholders "\x7b\x7blit\x7d\x7d \x7bx\x7d".data = ["x".data] := by decide

example : extract_placeholders "\x7b0\x7d \x7b1\x7d".data = ["0".data, "1".data] := by decide

example : extract_placeholders "Hello \x7b\x7d".data = [[]] := by decide

example : extract_placeholders "Item \x7b0\x7d: \x7bname\x7d costs $\x7bprice:.2f\x7d".data
    = ["0".data, "name".data, "price".data] := by decide

/-! ## Formatting errors -/

/-- The failures the formatting path can raise. `missingVars` models the
ValueError of validate_format_args, carrying the sorted list of missing
names that the message prints; the others model the ValueError, IndexError
and KeyError that CPython str.format raises. -/
inductive FmtErr
  | missingVars (names : List Chars)
  | valueErr (msg : String)
  | indexErr (msg : String)
  | keyErr (name : Chars)
  deriving DecidableEq, Repr

deriving instance DecidableEq for Except

/-! ## validate_format_args (placeholder_utils) -/

/-- The keys of the combined lookup validate_format_args builds: the keyword
names, each positional argument keyed by its stringified index, and the
empty name when the template has an empty placeholder and a positional
argument exists. -/
def providedKeys (placeholders : List Chars) (args : List Chars)
    (kwargs : List (Chars × Chars)) : List Chars :=
  kwargs.map Prod.fst ++ (List.range args.length).map strOfNat ++
    (if ([] : Chars) ∈ placeholders ∧ args ≠ [] then [([] : Chars)] else [])

/-- placeholder_utils.validate_format_args: when validation is not skipped,
compute the placeholders missing from the combined lookup and raise a
ValueError listing them sorted when any exist. -/
def validate_format_args (placeholders : List Chars) (args : List Chars)
    (kwargs : List (Chars × Chars)) (skip_validation : Bool) : Except FmtErr Unit :=
  if skip_validation then .ok () else
  let missing :=
    sortNames (placeholders.filter (fun p => p ∉ providedKeys placeholders args kwargs))
  if missing ≠ [] then .error (.missingVars missing) else .ok ()

/-- The sorted list of placeholders missing from the combined lookup, as
validate_format_args computes it. -/
def missingVarsOf (placeholders : List Chars) (args : List Chars)
    (kwargs : List (Chars × Chars)) : List Chars :=
  sortNames (placeholders.filter (fun p => p ∉ providedKeys placeholders args kwargs))

/-! ## CPython str.format for string values -/

/-- An alignment character of the format-spec mini-language. -/
def isAlign (c : Char) : Bool :=
  c == '<' || c == '>' || c == '^' || c == '='

/-- Pad or truncate a string value according to the parsed spec: precision
truncates, width pads with the fill character (default space), alignment
left by default. -/
def padStr (v : Chars) (fill align : Option Char) (width : Option Nat)
    (prec : Option Nat) : Chars :=
  let t := match prec with | some p => v.take p | none => v
  match width with
  | none => t
  | some w =>
    if t.length < w then
      let pad := w - t.length
      let f := fill.getD ' '
      match align.getD '<' with
      | '>' => List.replicate pad f ++ t
      | '^' => List.replicate (pad / 2) f ++ t ++ List.replicate (pad - pad / 2) f
      | _ => t ++ List.replicate pad f
    else t

/-- Check the type character of a string format spec and render. -/
def renderStr (v : Chars) (fill align : Option Char) (width : Option Nat)
    (prec : Option Nat) (rest : Chars) : Except FmtErr Chars :=
  match rest with
  | [] => .ok (padStr v fill align width prec)
  | ['s'] => .ok (padStr v fill align width prec)
  | [_] => .error (.valueErr "unknown format code for object of type str")
  | _ => .error (.valueErr "invalid format specifier")

/-- Parse the grouping, precision and type tail of a string format spec. -/
def afterWidth (v : Chars) (fill align : Option Char) (width : Option Nat)
    (r3 : Chars) : Except FmtErr Chars :=
  if r3.head? = some ',' ∨ r3.head? = some '_' then
    .error (.valueErr "grouping option not allowed with string type")
  else if r3.head? = some '.' then
    if r3.tail.takeWhile Char.isDigit = [] then
      .error (.valueErr "format spec missing precision")
    else
      renderStr v fill align width (some (natOfDigits (r3.tail.takeWhile Char.isDigit)))
        (r3.tail.dropWhile Char.isDigit)
  else renderStr v fill align width none r3

/-- Parse the width digits of a string format spec. -/
def afterZero (v : Chars) (fill align : Option Char) (r2 : Chars) :
    Except FmtErr Chars :=
  afterWidth v fill align
    (if r2.takeWhile Char.isDigit = [] then none
     else some (natOfDigits (r2.takeWhile Char.isDigit)))
    (r2.dropWhile Char.isDigit)

/-- Check sign, alternate form, equals alignment and the zero fill flag of a
string format spec. -/
def afterAlign (v : Chars) (fill align : Option Char) (r1 : Chars) :
    Except FmtErr Chars :=
  if r1.head? = some '+' ∨ r1.head? = some '-' ∨ r1.head? = some ' ' then
    .error (.valueErr "sign not allowed in string format specifier")
  else if r1.head? = some '#' then
    .error (.valueErr "alternate form not allowed in string format specifier")
  else if align = some '=' then
    .error (.valueErr "equals alignment not allowed in string format specifier")
  else if r1.head? = some '0' then
    afterZero v (some (fill.getD '0')) align r1.tail
  else afterZero v fill align r1

/-- CPython format(value, spec) for a string value: parse
[[fill]align][sign][#][0][width][,][.precision][type] and render. Sign,
alternate form, grouping, equals-alignment and any type other than s are
errors for strings; precision truncates; width pads with the fill
character (default space, default alignment left, a lone 0 selecting the
zero fill character). -/
def formatStr (v spec : Chars) : Except FmtErr Chars :=
  match spec with
  | a :: b :: rest =>
    if isAlign b then afterAlign v (some a) (some b) rest
    else if isAlign a then afterAlign v none (some a) (b :: rest)
    else afterAlign v none none (a :: b :: rest)
  | [a] => if isAlign a then afterAlign v none (some a) [] else afterAlign v none none [a]
  | [] => afterAlign v none none []

/-- Resolve one replacement field of str.format to its argument: an empty
name consumes the automatic counter (disabled once a manual index is used),
a digit name is a manual positional index (disabling the automatic counter),
anything else is a keyword lookup. The counter state is `some n` while
automatic numbering is allowed with next index n, `none` once disabled. -/
def lookupField (args : List Chars) (kwargs : List (Chars × Chars))
    (name : Chars) (st : Option Nat) : Except FmtErr (Chars × Option Nat) :=
  if name = [] then
    match st with
    | none =>
      .error (.valueErr "cannot switch from manual field specification to automatic field numbering")
    | some n =>
      match args.get? n with
      | some v => .ok (v, some (n + 1))
      | none => .error (.indexErr "replacement index out of range for positional args tuple")
  else if name.all Char.isDigit then
    match st with
    | some (_ + 1) =>
      .error (.valueErr "cannot switch from automatic field numbering to manual field specification")
    | _ =>
      match args.get? (natOfDigits name) with
      | some v => .ok (v, none)
      | none => .error (.indexErr "replacement index out of range for positional args tuple")
  else
    match kwargs.lookup name with
    | some v => .ok (v, st)
    | none => .error (.keyErr name)

/-- State of the str.format parser: literal text, inside a field name (held
reversed), inside a format spec (resolved value and spec so far), or inside
a nested replacement field of a spec. -/
inductive FmtSt
  | literal
  | fieldName (nameRev : Chars)
  | fieldSpec (v : Chars) (specRev : Chars)
  | nestedName (v : Chars) (specRev : Chars) (inameRev : Chars)

/-- CPython str.format body: copy literal text, unescape doubled braces,
raise on a lone closing brace, and for each replacement field look the
argument up, resolve the format spec (substituting one level of nested
fields), apply it, and continue. -/
def fmtGo (args : List Chars) (kwargs : List (Chars × Chars)) :
    Chars → FmtSt → Option Nat → Except FmtErr Chars
  | [], .literal, _ => .ok []
  | [], .fieldName _, _ =>
    .error (.valueErr "single opening brace encountered in format string")
  | [], .fieldSpec _ _, _ =>
    .error (.valueErr "unterminated format spec in format string")
  | [], .nestedName _ _ _, _ =>
    .error (.valueErr "unterminated replacement field in format spec")
  | '{' :: '{' :: rest, .literal, st =>
    (fmtGo args kwargs rest .literal st).map ('{' :: ·)
  | '}' :: '}' :: rest, .literal, st =>
    (fmtGo args kwargs rest .literal st).map ('}' :: ·)
  | '}' :: _, .literal, _ =>
    .error (.valueErr "single closing brace encountered in format string")
  | '{' :: rest, .literal, st => fmtGo args kwargs rest (.fieldName []) st
  | c :: rest, .literal, st => (fmtGo args kwargs rest .literal st).map (c :: ·)
  | '}' :: rest, .fieldName nameRev, st =>
    match lookupField args kwargs nameRev.reverse st with
    | .error e => .error e
    | .ok (v, st') => (fmtGo args kwargs rest .literal st').map (v ++ ·)
  | ':' :: rest, .fieldName nameRev, st =>
    match lookupField args kwargs nameRev.reverse st with
    | .error e => .error e
    | .ok (v, st') => fmtGo args kwargs rest (.fieldSpec v []) st'
  | '{' :: _, .fieldName _, _ =>
    .error (.valueErr "unexpected opening brace in field name")
  | c :: rest, .fieldName nameRev, st => fmtGo args kwargs rest (.fieldName (c :: nameRev)) st
  | '}' :: rest, .fieldSpec v specRev, st =>
    match formatStr v specRev.reverse with
    | .error e => .error e
    | .ok r => (fmtGo args kwargs rest .literal st).map (r ++ ·)
  | '{' :: rest, .fieldSpec v specRev, st => fmtGo args kwargs rest (.nestedName v specRev []) st
  | c :: rest, .fieldSpec v specRev, st => fmtGo args kwargs rest (.fieldSpec v (c :: specRev)) st
  | '}' :: rest, .nestedName v specRev inameRev, st =>
    match lookupField args kwargs inameRev.reverse st with
    | .error e => .error e
    | .ok (w, st') => fmtGo args kwargs rest (.fieldSpec v (w.reverse ++ specRev)) st'
  | ':' :: _, .nestedName _ _ _, _ =>
    .error (.valueErr "max string recursion exceeded")
  | '{' :: _, .nestedName _ _ _, _ =>
    .error (.valueErr "unexpected opening brace in field name")
  | c :: rest, .nestedName v specRev inameRev, st =>
    fmtGo args kwargs rest (.nestedName v specRev (c :: inameRev)) st

/-- CPython str.format on a template with string-valued arguments. -/
def pyFormat (s : Chars) (args : List Chars) (kwargs : List (Chars × Chars)) :
    Except FmtErr Chars :=
  fmtGo args kwargs s .literal (some 0)

/-! ## PromptString.format (prompt_string.py) -/

/-- The value the combined lookup of PromptString._partial_format holds for
a placeholder: positional arguments keyed by stringified index override
keyword arguments; note the empty name is not given to the first positional
argument here, unlike in validation. -/
def lookupAll (args : List Chars) (kwargs : List (Chars × Chars)) (p : Chars) :
    Option Chars :=
  match (List.range args.length).find? (fun i => decide (strOfNat i = p)) with
  | some i => args.get? i
  | none => kwargs.lookup p

/-- PromptString._partial_format on the stripped source: iterate over the
template's placeholder set and, for each placeholder present in the lookup
whose literal brace-wrapped pattern occurs in the current text, replace
every occurrence of that pattern by the value. -/
def partialFormat (text : Chars) (args : List Chars)
    (kwargs : List (Chars × Chars)) : Chars :=
  (extract_placeholders text).foldl (fun result p =>
    match lookupAll args kwargs p with
    | some v =>
      let pattern := '{' :: p ++ ['}']
      if containsSub pattern result then replaceAll pattern v result else result
    | none => result) (pyStrip text)

/-- PromptString.format: strip the template text; in partial mode substitute
what the lookup has, otherwise validate against the placeholder set of the
original text and delegate to str.format. -/
def promptFormat (text : Chars) (args : List Chars)
    (kwargs : List (Chars × Chars)) (skip_validation : Bool) : Except FmtErr Chars :=
  if skip_validation then .ok (partialFormat text args kwargs)
  else
    match validate_format_args (extract_placeholders text) args kwargs false with
    | .error e => .error e
    | .ok _ => pyFormat (pyStrip text) args kwargs

example :
    promptFormat "Hello \x7bname\x7d".data [] [("name".data, "Alice".data)] false
      = .ok "Hello Alice".data := by decide

example :
    promptFormat "Hello \x7b0\x7d, you are \x7b1\x7d".data ["Bob".data, "25".data] [] false
      = .ok "Hello Bob, you are 25".data := by decide

example :
    promptFormat "Aligned: \x7btext:>10\x7d, Padded: \x7bnum:0>5\x7d".data []
      [("text".data, "hi".data), ("num".data, "42".data)] false
      = .ok "Aligned:         hi, Padded: 00042".data := by decide

example :
    promptFormat "Hello \x7b0\x7d, you are \x7bage\x7d years old".data ["Alice".data] [] true
      = .ok "Hello Alice, you are \x7bage\x7d years old".data := by decide

example :
    promptFormat "Hello \x7b0\x7d, you are \x7bage\x7d years old".data []
      [("age".data, "30".data)] true
      = .ok "Hello \x7b0\x7d, you are 30 years old".data := by decide

example :
    promptFormat "\x7b\x7d \x7b\x7d".data ["x".data] [] false
      = .error (.indexErr "replacement index out of range for positional args tuple") := by
  decide

example :
    promptFormat "Hello \x7bname\x7d".data [] [] false
      = .error (.missingVars ["name".data]) := by decide

/-! ## The front-matter splitter (_parser._split_front_matter) -/

/-- The 3-character front-matter delimiter. -/
def DELIM : Chars := ['-', '-', '-']

/-- The caller-visible failures of loading, one constructor per distinct
message the source raises. The four invalidMeta constructors model
InvalidMetadataError (missing STRICT fields, empty STRICT fields, a TOML
syntax failure, and the wrapper the file parser puts around a
MalformedHeaderError when the file starts with the delimiter, whose message
suggests IGNORE mode); bodyEmpty models the validation failure of
Prompt.prompt_not_empty. -/
inductive TPError
  | malformedHeader
  | missingMetadata
  | invalidMetaMissing (fields : List Chars)
  | invalidMetaEmpty (fields : List Chars)
  | invalidMetaToml (msg : Chars)
  | invalidMetaWrapped
  | bodyEmpty
  deriving DecidableEq, Repr

/-- True exactly when the error is an InvalidMetadataError of the source's
error taxonomy. -/
def TPError.isInvalidMetadata : TPError → Bool
  | .invalidMetaMissing _ => true
  | .invalidMetaEmpty _ => true
  | .invalidMetaToml _ => true
  | .invalidMetaWrapped => true
  | _ => false

/-- _parser._split_front_matter: a text not starting with the delimiter is
all body with no header; otherwise the second delimiter is searched from
index 3, its absence is a MalformedHeaderError, and the header is the text
strictly between the delimiters stripped of outer whitespace while the body
is the text after the second delimiter with leading newlines removed. -/
def splitFrontMatter (raw : Chars) : Except TPError (Option Chars × Chars) :=
  if ¬ DELIM.isPrefixOf raw then .ok (none, raw)
  else
    match findSub DELIM raw DELIM.length with
    | none => .error .malformedHeader
    | some i =>
      .ok (some (pyStrip ((raw.drop DELIM.length).take (i - DELIM.length))),
        lstripNl (raw.drop (i + DELIM.length)))

example : splitFrontMatter "---\ntitle\n---\nbody".data
    = .ok (some "title".data, "body".data) := by decide

example : splitFrontMatter "no header".data = .ok (none, "no header".data) := by decide

example : splitFrontMatter "---\nno close".data = .error .malformedHeader := by decide

/-! ## textwrap.dedent -/

/-- A space or tab, the characters textwrap.dedent treats as indentation. -/
def isSpaceTab (c : Char) : Bool :=
  c == ' ' || c == '\t'

/-- Python str.split on a newline: the lines of a text, the final one
without a trailing newline. -/
def splitNl : Chars → List Chars
  | [] => [[]]
  | '\n' :: t => [] :: splitNl t
  | c :: t =>
    match splitNl t with
    | [] => [[c]]
    | l :: ls => (c :: l) :: ls

/-- Inverse of splitNl: join lines with newlines. -/
def joinNl : List Chars → Chars
  | [] => []
  | [l] => l
  | l :: ls => l ++ '\n' :: joinNl ls

/-- Longest common prefix of two texts, textwrap.dedent's margin
combination. -/
def lcp : Chars → Chars → Chars
  | a :: as, b :: bs => if a = b then a :: lcp as bs else []
  | _, _ => []

/-- A line consisting solely of spaces and tabs is normalized to an empty
line by textwrap.dedent. -/
def wsOnlyToEmpty (l : Chars) : Chars :=
  if l ≠ [] ∧ l.all isSpaceTab then [] else l

/-- The space-and-tab indentation of every line that contains a
non-whitespace character. -/
def dedentIndents (emptied : List Chars) : List Chars :=
  emptied.filterMap (fun l =>
    if l.any (fun c => ¬ isSpaceTab c) then some (l.takeWhile isSpaceTab) else none)

/-- The margin of textwrap.dedent: the longest common prefix of the
indentations. -/
def dedentMargin (indents : List Chars) : Chars :=
  match indents with
  | [] => []
  | i :: rest => rest.foldl lcp i

/-- Remove the margin from every line that starts with it. -/
def dedentStrip (margin : Chars) (emptied : List Chars) : List Chars :=
  if margin = [] then emptied
  else emptied.map (fun l => if margin.isPrefixOf l then l.drop margin.length else l)

/-- textwrap.dedent: lines consisting solely of spaces and tabs are
normalized to empty lines; the margin is the longest common prefix of the
space-and-tab indentation of the lines that contain a non-whitespace
character, and is removed from every line that starts with it. -/
def dedent (text : Chars) : Chars :=
  joinNl (dedentStrip (dedentMargin (dedentIndents ((splitNl text).map wsOnlyToEmpty)))
    ((splitNl text).map wsOnlyToEmpty))

example : dedent "---\n   \nx".data = "---\n\nx".data := by decide

example : dedent "   \n  ".data = ['\n'] := by decide

example : dedent "  a\n  b".data = "a\nb".data := by decide

example : dedent "---\n  a\n  b".data = "---\n  a\n  b".data := by decide

/-! ## The file parser (_parser.parse_file) -/

/-- The metadata handling modes of config.MetadataMode. -/
inductive MetadataMode
  | strict
  | allow
  | ignore
  deriving DecidableEq, Repr

/-- models.PromptMeta: every field optional. Values are modelled as strings
(the claims under verification only involve string-valued headers). -/
structure PromptMeta where
  title : Option Chars := none
  version : Option Chars := none
  author : Option Chars := none
  created : Option Chars := none
  description : Option Chars := none
  deriving DecidableEq, Repr

/-- models.Prompt as the parser returns it: the validated metadata and the
prompt body. The path is carried outside as the stem parameter. -/
structure PromptR where
  meta : PromptMeta
  prompt : Chars
  deriving DecidableEq, Repr

/-- PromptMeta.model_validate on a parsed header table: each known key is
looked up, unknown keys are ignored. -/
def metaFromData (data : List (Chars × Chars)) : PromptMeta :=
  { title := data.lookup "title".data
    version := data.lookup "version".data
    author := data.lookup "author".data
    created := data.lookup "created".data
    description := data.lookup "description".data }

/-- The three required STRICT-mode fields. -/
def requiredFields : List Chars :=
  ["title".data, "description".data, "version".data]

/-- Prompt.model_validate with the prompt_not_empty validator: constructing
the final value fails when the body's trimmed text is empty. -/
def mkPrompt (meta : PromptMeta) (body : Chars) : Except TPError PromptR :=
  if pyStrip body = [] then .error .bodyEmpty else .ok { meta := meta, prompt := body }

/-- _parser.parse_file on the decoded text `raw` of a file whose base name
without extension is `stem`. The TOML parser the source delegates to
(tomllib.loads) is abstracted as the parameter `tp`, returning either the
parsed key/value table of a syntactically valid header or the message of a
TOMLDecodeError. The returned Bool records whether the advisory warning of
IGNORE mode was emitted; `warnFlag` is config.warn_on_ignored_metadata(). -/
def parseFile (tp : Chars → Except Chars (List (Chars × Chars))) (warnFlag : Bool)
    (mode : MetadataMode) (stem : Chars) (raw : Chars) :
    Except TPError (PromptR × Bool) :=
  match mode with
  | .ignore =>
    let warn := warnFlag && DELIM.isPrefixOf raw && (findSub DELIM raw DELIM.length).isSome
    (mkPrompt { title := some stem } (dedent raw)).map (fun p => (p, warn))
  | _ =>
    match splitFrontMatter raw with
    | .error _ =>
      if DELIM.isPrefixOf raw then .error .invalidMetaWrapped else .error .malformedHeader
    | .ok (headerTxt, body) =>
      match headerTxt with
      | some h =>
        match tp h with
        | .error m => .error (.invalidMetaToml m)
        | .ok data =>
          if mode = .strict then
            let missing := sortNames (requiredFields.filter (fun f => data.lookup f = none))
            if missing ≠ [] then .error (.invalidMetaMissing missing)
            else
              let empties := sortNames (requiredFields.filter (fun f =>
                match data.lookup f with
                | some v => pyStrip v = []
                | none => true))
              if empties ≠ [] then .error (.invalidMetaEmpty empties)
              else finish (metaFromData data) body
          else finish (metaFromData data) body
      | none =>
        if mode = .strict then .error .missingMetadata
        else finish {} body
where
  /-- Shared tail of parse_file: default the title to the stem when absent,
  dedent the body and validate the final Prompt. -/
  finish (meta : PromptMeta) (body : Chars) : Except TPError (PromptR × Bool) :=
    let meta' := if meta.title = none then { meta with title := some stem } else meta
    (mkPrompt meta' (dedent body)).map (fun p => (p, false))

/-- A concrete stand-in for the TOML parser in closed statements that never
reach it. -/
def tpNone : Chars → Except Chars (List (Chars × Chars)) :=
  fun _ => .error []

example :
    parseFile tpNone true .allow "p".data "---\nfoo".data = .error .invalidMetaWrapped := by
  decide

example :
    parseFile tpNone true .ignore "p".data "---\nhello".data
      = .ok (⟨{ title := some "p".data }, "---\nhello".data⟩, false) := by decide

example :
    parseFile tpNone true .ignore "p".data "---\na\n---\nb".data
      = .ok (⟨{ title := some "p".data }, "---\na\n---\nb".data⟩, true) := by decide

example :
    parseFile (fun _ => .ok [("title".data, "A".data), ("description".data, "B".data),
        ("version".data, [])]) true .strict "p".data "---\nx\n---\nbody".data
      = .error (.invalidMetaEmpty ["version".data]) := by decide

example :
    parseFile tpNone true .allow "p".data "hello world".data
      = .ok (⟨{ title := some "p".data }, "hello world".data⟩, false) := by decide

example :
    parseFile tpNone true .strict "p".data "   \n  ".data = .error .missingMetadata := by
  decide

example :
    parseFile tpNone true .allow "p".data "   \n  ".data = .error .bodyEmpty := by decide

example :
    parseFile tpNone true .ignore "p".data "   \n  ".data = .error .bodyEmpty := by decide

/-! ## Helper lemmas: find -/

theorem findAux_none {pat : Chars} :
    ∀ {s : Chars} {i : Nat}, findAux pat s i = none → ∀ j, ¬ pat <+: s.drop j := by
  intro s
  induction s with
  | nil =>
    intro i h j hpre
    simp only [findAux] at h
    rw [List.drop_nil] at hpre
    rw [List.isPrefixOf_iff_prefix.2 hpre] at h
    simp at h
  | cons c t ih =>
    intro i h j hpre
    simp only [findAux] at h
    split at h
    · exact Option.noConfusion h
    · rename_i hnp
      match j with
      | 0 =>
        rw [List.drop_zero] at hpre
        exact hnp (List.isPrefixOf_iff_prefix.2 hpre)
      | j' + 1 =>
        rw [List.drop_succ_cons] at hpre
        exact ih h j' hpre

theorem findAux_some {pat : Chars} :
    ∀ {s : Chars} {i k : Nat}, findAux pat s i = some k →
      i ≤ k ∧ pat <+: s.drop (k - i) ∧ ∀ j, j < k - i → ¬ pat <+: s.drop j := by
  intro s
  induction s with
  | nil =>
    intro i k h
    simp only [findAux] at h
    split at h
    · rename_i hp
      cases h
      refine ⟨le_refl _, ?_, ?_⟩
      · simpa using List.isPrefixOf_iff_prefix.1 hp
      · intro j hj; omega
    · exact Option.noConfusion h
  | cons c t ih =>
    intro i k h
    simp only [findAux] at h
    split at h
    · rename_i hp
      cases h
      refine ⟨le_refl _, ?_, ?_⟩
      · simpa using List.isPrefixOf_iff_prefix.1 hp
      · intro j hj; omega
    · rename_i hnp
      obtain ⟨h1, h2, h3⟩ := ih h
      refine ⟨by omega, ?_, ?_⟩
      · have : k - i = (k - (i + 1)) + 1 := by omega
        rw [this, List.drop_succ_cons]
        exact h2
      · intro j hj
        match j with
        | 0 =>
          rw [List.drop_zero]
          intro hpre
          exact hnp (List.isPrefixOf_iff_prefix.2 hpre)
        | j' + 1 =>
          rw [List.drop_succ_cons]
          exact h3 j' (by omega)

theorem findSub_none {pat s : Chars} {start : Nat} (h : findSub pat s start = none) :
    ∀ j, start ≤ j → ¬ pat <+: s.drop j := by
  intro j hj hpre
  have := findAux_none (s := s.drop start) (i := start) h (j - start)
  rw [List.drop_drop] at this
  have heq : start + (j - start) = j := by omega
  rw [heq] at this
  exact this hpre

theorem findSub_some {pat s : Chars} {start k : Nat} (h : findSub pat s start = some k) :
    start ≤ k ∧ pat <+: s.drop k ∧ ∀ j, start ≤ j → j < k → ¬ pat <+: s.drop j := by
  obtain ⟨h1, h2, h3⟩ := findAux_some (s := s.drop start) (i := start) h
  rw [List.drop_drop] at h2
  have heq : start + (k - start) = k := by omega
  rw [heq] at h2
  refine ⟨h1, h2, ?_⟩
  intro j hj hjk hpre
  have := h3 (j - start) (by omega)
  rw [List.drop_drop] at this
  have heq2 : start + (j - start) = j := by omega
  rw [heq2] at this
  exact this hpre

theorem findSub_isSome_iff {pat s : Chars} {start : Nat} :
    (findSub pat s start).isSome = true ↔ ∃ j, start ≤ j ∧ pat <+: s.drop j := by
  constructor
  · intro h
    obtain ⟨k, hk⟩ := Option.isSome_iff_exists.1 h
    obtain ⟨h1, h2, _⟩ := findSub_some hk
    exact ⟨k, h1, h2⟩
  · intro ⟨j, hj, hpre⟩
    cases hf : findSub pat s start with
    | some k => simp
    | none => exact absurd hpre (findSub_none hf j hj)

/-! ## Helper lemmas: strip -/

theorem dropWhile_dropWhile (p : Char → Bool) :
    ∀ (l : Chars), (l.dropWhile p).dropWhile p = l.dropWhile p := by
  intro l
  induction l with
  | nil => simp
  | cons c t ih =>
    by_cases h : p c
    · simpa [List.dropWhile, h] using ih
    · simp [List.dropWhile, h]

theorem pyStrip_decomp (s : Chars) :
    ∃ a b, s = a ++ pyStrip s ++ b ∧ (∀ c ∈ a, isPyWs c) ∧ ∀ c ∈ b, isPyWs c := by
  refine ⟨s.takeWhile isPyWs, ((s.dropWhile isPyWs).reverse.takeWhile isPyWs).reverse,
    ?_, ?_, ?_⟩
  · have hd : s.dropWhile isPyWs
        = pyStrip s ++ ((s.dropWhile isPyWs).reverse.takeWhile isPyWs).reverse := by
      unfold pyStrip
      conv_lhs => rw [← List.reverse_reverse (s.dropWhile isPyWs)]
      conv_lhs =>
        rw [← List.takeWhile_append_dropWhile (p := isPyWs)
          (l := (s.dropWhile isPyWs).reverse)]
      rw [List.reverse_append]
    conv_lhs => rw [← List.takeWhile_append_dropWhile (p := isPyWs) (l := s), hd]
    rw [List.append_assoc]
  · intro c hc
    exact List.mem_takeWhile_imp hc
  · intro c hc
    rw [List.mem_reverse] at hc
    exact List.mem_takeWhile_imp hc

theorem pyStrip_infix_self (s : Chars) : pyStrip s <:+: s := by
  obtain ⟨a, b, hs, _, _⟩ := pyStrip_decomp s
  exact ⟨a, b, by rw [← hs]⟩

theorem dropWhile_head_false {p : Char → Bool} :
    ∀ {l : Chars} {c : Char} {t : Chars}, l.dropWhile p = c :: t → p c = false := by
  intro l
  induction l with
  | nil => intro c t h; simp at h
  | cons d u ih =>
    intro c t h
    by_cases hp : p d
    · rw [List.dropWhile_cons_of_pos hp] at h
      exact ih h
    · rw [List.dropWhile_cons_of_neg hp] at h
      cases h
      exact Bool.eq_false_iff.2 hp

theorem pyStrip_idem (s : Chars) : pyStrip (pyStrip s) = pyStrip s := by
  have h1 : (pyStrip s).dropWhile isPyWs = pyStrip s := by
    unfold pyStrip
    cases hd : s.dropWhile isPyWs with
    | nil => simp
    | cons c t =>
      have hc : isPyWs c = false := dropWhile_head_false hd
      rw [List.reverse_cons, List.dropWhile_append]
      split
      · rw [List.dropWhile_cons, hc]
        simp [hc]
      · rw [List.reverse_append, List.reverse_cons, List.reverse_nil, List.nil_append,
          List.singleton_append, List.dropWhile_cons, hc]
        simp
  have h2 : pyStrip (pyStrip s)
      = (((pyStrip s).dropWhile isPyWs).reverse.dropWhile isPyWs).reverse := rfl
  rw [h2, h1]
  unfold pyStrip
  rw [List.reverse_reverse, dropWhile_dropWhile]

theorem pyStrip_eq_nil_iff {s : Chars} : pyStrip s = [] ↔ ∀ c ∈ s, isPyWs c := by
  constructor
  · intro h c hc
    obtain ⟨a, b, hs, ha, hb⟩ := pyStrip_decomp s
    rw [h] at hs
    rw [hs] at hc
    simp only [List.append_nil, List.mem_append] at hc
    cases hc with
    | inl hca => exact ha c hca
    | inr hcb => exact hb c hcb
  · intro h
    unfold pyStrip
    rw [List.dropWhile_eq_nil_iff.2 h]
    simp

/-! ## Helper lemmas: small facts -/

theorem lookup_mem {k v : Chars} :
    ∀ {l : List (Chars × Chars)}, l.lookup k = some v → (k, v) ∈ l := by
  intro l
  induction l with
  | nil => intro h; simp [List.lookup] at h
  | cons p t ih =>
    intro h
    rw [List.lookup] at h
    split at h
    · rename_i hbeq
      cases h
      have hk : k = p.1 := by simpa using hbeq
      rw [hk, Prod.mk.eta]
      exact List.mem_cons_self _ _
    · right
      exact ih h

theorem toDigitsCore_length (b : Nat) :
    ∀ (fuel n : Nat) (ds : List Char),
      ds.length ≤ (Nat.toDigitsCore b fuel n ds).length ∧
        (fuel ≠ 0 → ds.length < (Nat.toDigitsCore b fuel n ds).length) := by
  intro fuel
  induction fuel with
  | zero =>
    intro n ds
    exact ⟨le_refl _, fun h => absurd rfl h⟩
  | succ f ih =>
    intro n ds
    show ds.length ≤ (Nat.toDigitsCore b (f + 1) n ds).length ∧ _
    rw [Nat.toDigitsCore]
    split
    · simp
    · obtain ⟨h1, _⟩ := ih (n / b) ((n % b).digitChar :: ds)
      constructor
      · calc ds.length ≤ ((n % b).digitChar :: ds).length := by simp
          _ ≤ _ := h1
      · intro _
        calc ds.length < ((n % b).digitChar :: ds).length := by simp
          _ ≤ _ := h1

theorem strOfNat_ne_nil (n : Nat) : strOfNat n ≠ [] := by
  have h : strOfNat n = Nat.toDigitsCore 10 (n + 1) n [] := rfl
  rw [h]
  intro hc
  have := (toDigitsCore_length 10 (n + 1) n []).2 (by omega)
  rw [hc] at this
  simp at this

/-! ## Helper lemmas: replace -/

theorem replAux_skip (pat rep : Chars) :
    ∀ (u t : Chars), replAux pat rep (u ++ t) u.length = replAux pat rep t 0 := by
  intro u
  induction u with
  | nil => intro t; rfl
  | cons c u' ih =>
    intro t
    show replAux pat rep (c :: (u' ++ t)) (u'.length + 1) = _
    rw [replAux]
    exact ih t

theorem replaceAll_of_absent {pat rep : Chars} :
    ∀ {s : Chars}, ¬ pat <:+: s → replaceAll pat rep s = s := by
  intro s
  induction s with
  | nil => intro _; rfl
  | cons c t ih =>
    intro h
    show replAux pat rep (c :: t) 0 = c :: t
    rw [replAux]
    split
    · rename_i hcond
      exfalso
      apply h
      obtain ⟨r, hr⟩ := List.isPrefixOf_iff_prefix.1 hcond.1
      exact ⟨[], r, by simpa using hr⟩
    · show c :: replaceAll pat rep t = c :: t
      rw [ih (fun hi => h (List.infix_cons hi))]

theorem prefix_append_cases {pat x b : Chars} (h : pat <+: x ++ b) :
    pat <+: x ∨ ∃ c, c ∈ pat ∧ c ∈ b := by
  by_cases hl : pat.length ≤ x.length
  · left
    rw [List.prefix_iff_eq_take] at h ⊢
    rw [List.take_append_of_le_length hl] at h
    exact h
  · right
    have hlen : pat.length ≤ x.length + b.length := by
      have := h.length_le
      simpa using this
    have hx : x.length < pat.length := by omega
    refine ⟨pat[x.length], List.getElem_mem hx, ?_⟩
    have hxb : x.length < (x ++ b).length := by simp; omega
    have he : pat[x.length] = (x ++ b)[x.length] := h.getElem hx
    rw [List.getElem_append_right (le_refl _)] at he
    rw [he]
    exact List.getElem_mem _

theorem not_infix_of_disjoint {pat b : Chars} (hne : pat ≠ [])
    (hdisj : ∀ c ∈ b, c ∉ pat) : ¬ pat <:+: b := by
  intro h
  match pat, hne with
  | p :: pr, _ =>
    have hp : p ∈ b := h.sublist.subset (List.mem_cons_self p pr)
    exact hdisj p hp (List.mem_cons_self p pr)

theorem replAux_append {pat rep b : Chars} (hne : pat ≠ [])
    (hdisj : ∀ c ∈ b, c ∉ pat) :
    ∀ (s : Chars) (k : Nat), k ≤ s.length →
      replAux pat rep (s ++ b) k = replAux pat rep s k ++ b := by
  intro s
  induction s with
  | nil =>
    intro k hk
    have hk0 : k = 0 := by simpa using hk
    subst hk0
    show replaceAll pat rep b = replAux pat rep [] 0 ++ b
    rw [replaceAll_of_absent (not_infix_of_disjoint hne hdisj)]
    rfl
  | cons c t ih =>
    intro k hk
    match k with
    | k' + 1 =>
      show replAux pat rep (c :: (t ++ b)) (k' + 1) = replAux pat rep (c :: t) (k' + 1) ++ b
      rw [replAux, replAux]
      exact ih k' (by simpa using hk)
    | 0 =>
      show replAux pat rep (c :: (t ++ b)) 0 = replAux pat rep (c :: t) 0 ++ b
      rw [replAux, replAux]
      have hiff : (pat.isPrefixOf (c :: (t ++ b)) ∧ pat ≠ []) ↔
          (pat.isPrefixOf (c :: t) ∧ pat ≠ []) := by
        constructor
        · intro ⟨h1, h2⟩
          refine ⟨?_, h2⟩
          have hp := List.isPrefixOf_iff_prefix.1 h1
          rw [show c :: (t ++ b) = (c :: t) ++ b from rfl] at hp
          cases prefix_append_cases hp with
          | inl hgood => exact List.isPrefixOf_iff_prefix.2 hgood
          | inr hbad =>
            obtain ⟨ch, hcp, hcb⟩ := hbad
            exact absurd hcp (hdisj ch hcb)
        · intro ⟨h1, h2⟩
          refine ⟨?_, h2⟩
          have hp := List.isPrefixOf_iff_prefix.1 h1
          exact List.isPrefixOf_iff_prefix.2
            (hp.trans (List.prefix_append (c :: t) b))
      split
      · rename_i hcond
        have hcond2 := hiff.1 hcond
        rw [if_pos hcond2]
        have hlen : pat.length - 1 ≤ t.length := by
          have := (List.isPrefixOf_iff_prefix.1 hcond2.1).length_le
          simp at this
          omega
        rw [List.append_assoc]
        congr 1
        exact ih (pat.length - 1) hlen
      · rename_i hcond
        rw [if_neg (fun hh => hcond (hiff.2 hh))]
        rw [List.cons_append]
        congr 1
        exact ih 0 (by omega)

/-! ## Helper lemmas: the scanner -/

theorem scanGo_no_delims {b : Chars}
    (hb : ∀ c ∈ b, c ≠ '{' ∧ c ≠ '}' ∧ c ≠ ':') : ∀ st, scanGo b st = [] := by
  induction b with
  | nil => intro st; cases st <;> rfl
  | cons c t ih =>
    intro st
    obtain ⟨h1, h2, h3⟩ := hb c (List.mem_cons_self c t)
    have ht : ∀ c ∈ t, c ≠ '{' ∧ c ≠ '}' ∧ c ≠ ':' :=
      fun c hc => hb c (List.mem_cons_of_mem _ hc)
    cases st with
    | outside => rw [scanGo, if_neg h1]; exact ih ht _
    | name acc => rw [scanGo, if_neg h2, if_neg h3]; exact ih ht _
    | spec acc => rw [scanGo, if_neg h2]; exact ih ht _

theorem scanGo_append_left {a : Chars} (ha : ∀ c ∈ a, c ≠ '{') :
    ∀ (s : Chars), scanGo (a ++ s) .outside = scanGo s .outside := by
  induction a with
  | nil => intro s; rfl
  | cons c t ih =>
    intro s
    rw [List.cons_append, scanGo, if_neg (ha c (List.mem_cons_self c t))]
    exact ih (fun c hc => ha c (List.mem_cons_of_mem _ hc)) s

theorem scanGo_append_right {b : Chars}
    (hb : ∀ c ∈ b, c ≠ '{' ∧ c ≠ '}' ∧ c ≠ ':') :
    ∀ (s : Chars) (st : ScanSt), scanGo (s ++ b) st = scanGo s st := by
  intro s
  induction s with
  | nil =>
    intro st
    rw [List.nil_append, scanGo_no_delims hb st]
    cases st <;> rfl
  | cons c t ih =>
    intro st
    cases st with
    | outside =>
      by_cases h : c = '{'
      · rw [List.cons_append, scanGo, if_pos h, scanGo, if_pos h]; exact ih _
      · rw [List.cons_append, scanGo, if_neg h, scanGo, if_neg h]; exact ih _
    | name acc =>
      by_cases h1 : c = '}'
      · rw [List.cons_append, scanGo, if_pos h1, scanGo, if_pos h1, ih _]
      · by_cases h2 : c = ':'
        · rw [List.cons_append, scanGo, if_neg h1, if_pos h2, scanGo, if_neg h1, if_pos h2]
          exact ih _
        · rw [List.cons_append, scanGo, if_neg h1, if_neg h2, scanGo, if_neg h1, if_neg h2]
          exact ih _
    | spec acc =>
      by_cases h : c = '}'
      · rw [List.cons_append, scanGo, if_pos h, scanGo, if_pos h, ih _]
      · rw [List.cons_append, scanGo, if_neg h, scanGo, if_neg h]; exact ih _

theorem scanGo_name_run {n : Chars} (hn : ∀ c ∈ n, c ≠ '}' ∧ c ≠ ':') :
    ∀ (acc s : Chars),
      scanGo (n ++ '}' :: s) (.name acc) = (acc.reverse ++ n) :: scanGo s .outside := by
  induction n with
  | nil =>
    intro acc s
    rw [List.nil_append, scanGo, if_pos rfl, List.append_nil]
  | cons c t ih =>
    intro acc s
    obtain ⟨h1, h2⟩ := hn c (List.mem_cons_self c t)
    rw [List.cons_append, scanGo, if_neg h1, if_neg h2]
    rw [ih (fun c hc => hn c (List.mem_cons_of_mem _ hc)) (c :: acc) s]
    rw [List.reverse_cons, List.append_assoc, List.singleton_append]

theorem scanGo_names_clean :
    ∀ (s : Chars) (st : ScanSt),
      (∀ acc, st = .name acc → ∀ c ∈ acc, c ≠ '}' ∧ c ≠ ':') →
      (∀ acc, st = .spec acc → ∀ c ∈ acc, c ≠ '}' ∧ c ≠ ':') →
      ∀ n ∈ scanGo s st, ∀ c ∈ n, c ≠ '}' ∧ c ≠ ':' := by
  intro s
  induction s with
  | nil => intro st _ _ n hn; cases st <;> simp [scanGo] at hn
  | cons c t ih =>
    intro st hname hspec n hn
    cases st with
    | outside =>
      rw [scanGo] at hn
      split at hn
      · exact ih (.name []) (by intro acc h; cases h; simp) (by intro acc h; cases h) n hn
      · exact ih .outside (by intro acc h; cases h) (by intro acc h; cases h) n hn
    | name acc =>
      have hacc := hname acc rfl
      rw [scanGo] at hn
      split at hn
      · rcases List.mem_cons.1 hn with h | h
        · subst h
          intro ch hch
          rw [List.mem_reverse] at hch
          exact hacc ch hch
        · exact ih .outside (by intro a h; cases h) (by intro a h; cases h) n h
      · split at hn
        · exact ih (.spec acc) (by intro a h; cases h) (by intro a h; cases h; exact hacc) n hn
        · rename_i h1 h2
          refine ih (.name (c :: acc)) ?_ (by intro a h; cases h) n hn
          intro a h
          cases h
          intro ch hch
          rcases List.mem_cons.1 hch with h | h
          · subst h; exact ⟨h1, h2⟩
          · exact hacc ch h
    | spec acc =>
      have hacc := hspec acc rfl
      rw [scanGo] at hn
      split at hn
      · rcases List.mem_cons.1 hn with h | h
        · subst h
          intro ch hch
          rw [List.mem_reverse] at hch
          exact hacc ch hch
        · exact ih .outside (by intro a h; cases h) (by intro a h; cases h) n h
      · exact ih (.spec acc) (by intro a h; cases h) (by intro a h; cases h; exact hacc) n hn

/-- Every name the scanner returns is free of closing braces and colons. -/
theorem extract_placeholders_clean {t : Chars} :
    ∀ n ∈ extract_placeholders t, ∀ c ∈ n, c ≠ '}' ∧ c ≠ ':' := by
  intro n hn
  unfold extract_placeholders at hn
  rw [List.mem_dedup] at hn
  exact scanGo_names_clean _ .outside (by intro a h; cases h) (by intro a h; cases h) n hn

/-- The scanner result carries no duplicates: the Python set collapses
duplicate placeholder occurrences. -/
theorem extract_placeholders_nodup (t : Chars) : (extract_placeholders t).Nodup :=
  List.nodup_dedup _

theorem ws_not_delim {c : Char} (h : isPyWs c) : c ≠ '{' ∧ c ≠ '}' ∧ c ≠ ':' := by
  unfold isPyWs at h
  rcases Bool.or_eq_true_iff.1 h with h | h
  rotate_left
  · have : c = '\x0c' := by simpa using h
    subst this; refine ⟨by decide, by decide, by decide⟩
  rcases Bool.or_eq_true_iff.1 h with h | h
  rotate_left
  · have : c = '\x0b' := by simpa using h
    subst this; refine ⟨by decide, by decide, by decide⟩
  rcases Bool.or_eq_true_iff.1 h with h | h
  rotate_left
  · have : c = '\r' := by simpa using h
    subst this; refine ⟨by decide, by decide, by decide⟩
  rcases Bool.or_eq_true_iff.1 h with h | h
  rotate_left
  · have : c = '\n' := by simpa using h
    subst this; refine ⟨by decide, by decide, by decide⟩
  rcases Bool.or_eq_true_iff.1 h with h | h
  · have : c = ' ' := by simpa using h
    subst this; refine ⟨by decide, by decide, by decide⟩
  · have : c = '\t' := by simpa using h
    subst this; refine ⟨by decide, by decide, by decide⟩

theorem replaceAll_append_left {pat rep : Chars} {p0 : Char}
    (hp : pat.head? = some p0) :
    ∀ {a : Chars} (s : Chars), p0 ∉ a →
      replaceAll pat rep (a ++ s) = a ++ replaceAll pat rep s := by
  intro a
  induction a with
  | nil => intro s _; rfl
  | cons c a' ih =>
    intro s ha
    show replAux pat rep (c :: (a' ++ s)) 0 = c :: (a' ++ replaceAll pat rep s)
    rw [replAux]
    rw [if_neg]
    · show c :: replaceAll pat rep (a' ++ s) = _
      rw [ih s (fun h => ha (List.mem_cons_of_mem _ h))]
    · intro ⟨hpre, _⟩
      match pat, hp with
      | q :: pr, hq =>
        have hqp : q = p0 := by simpa using hq
        obtain ⟨r, hr⟩ := List.isPrefixOf_iff_prefix.1 hpre
        have hc : q = c := by
          have := congrArg List.head? hr
          simpa using this
        have hpc : p0 = c := by rw [← hqp, hc]
        exact ha (by rw [hpc]; exact List.mem_cons_self _ _)

theorem replaceAll_sandwich {pat rep : Chars} {p0 : Char}
    (hp : pat.head? = some p0) (a b x : Chars) (ha : p0 ∉ a)
    (hb : ∀ c ∈ b, c ∉ pat) :
    replaceAll pat rep (a ++ x ++ b) = a ++ replaceAll pat rep x ++ b := by
  have hne : pat ≠ [] := by
    intro h
    rw [h] at hp
    simp at hp
  rw [List.append_assoc, replaceAll_append_left hp (x ++ b) ha]
  show a ++ replAux pat rep (x ++ b) 0 = _
  rw [replAux_append hne hb x 0 (by omega)]
  rw [List.append_assoc]
  rfl

theorem extract_append_ws {a b x : Chars} (ha : ∀ c ∈ a, isPyWs c)
    (hb : ∀ c ∈ b, isPyWs c) :
    extract_placeholders (a ++ x ++ b) = extract_placeholders x := by
  unfold extract_placeholders
  congr 1
  have hbO : ∀ c ∈ b, c ∉ (['{', '{'] : Chars) := by
    intro c hc hmem
    have := (ws_not_delim (hb c hc)).1
    simp at hmem
    exact this hmem
  have hbC : ∀ c ∈ b, c ∉ (['}', '}'] : Chars) := by
    intro c hc hmem
    have := (ws_not_delim (hb c hc)).2.1
    simp at hmem
    exact this hmem
  rw [@replaceAll_sandwich ['{', '{'] escOpen '{' rfl a b x
    (fun hmem => (ws_not_delim (ha _ hmem)).1 rfl) hbO]
  rw [@replaceAll_sandwich ['}', '}'] escClose '}' rfl a b _
    (fun hmem => (ws_not_delim (ha _ hmem)).2.1 rfl) hbC]
  rw [List.append_assoc]
  rw [scanGo_append_left (fun c hc => (ws_not_delim (ha c hc)).1)]
  rw [scanGo_append_right (fun c hc => ws_not_delim (hb c hc))]

theorem extract_pyStrip (t : Chars) :
    extract_placeholders (pyStrip t) = extract_placeholders t := by
  obtain ⟨a, b, hs, ha, hb⟩ := pyStrip_decomp t
  conv_rhs => rw [hs]
  rw [extract_append_ws ha hb]

theorem scanGo_outside_no_open {s : Chars} (h : ∀ c ∈ s, c ≠ '{') :
    scanGo s .outside = [] := by
  have := scanGo_append_left h ([] : Chars)
  simpa using this

theorem extract_nil_of_braceFree {t : Chars} (h : ∀ c ∈ t, c ≠ '{' ∧ c ≠ '}') :
    extract_placeholders t = [] := by
  unfold extract_placeholders
  have e1 : replaceAll ['{', '{'] escOpen t = t :=
    replaceAll_of_absent (not_infix_of_disjoint (by simp)
      (fun c hc hmem => by simp at hmem; exact (h c hc).1 hmem))
  rw [e1]
  have e2 : replaceAll ['}', '}'] escClose t = t :=
    replaceAll_of_absent (not_infix_of_disjoint (by simp)
      (fun c hc hmem => by simp at hmem; exact (h c hc).2 hmem))
  rw [e2]
  rw [scanGo_outside_no_open (fun c hc => (h c hc).1)]
  rfl

theorem extract_single {s₁ n s₂ : Chars}
    (h1 : ∀ c ∈ s₁, c ≠ '{' ∧ c ≠ '}')
    (hn : ∀ c ∈ n, c ≠ '{' ∧ c ≠ '}' ∧ c ≠ ':')
    (h2 : ∀ c ∈ s₂, c ≠ '{' ∧ c ≠ '}') :
    extract_placeholders (s₁ ++ '{' :: (n ++ '}' :: s₂)) = [n] := by
  have hco : List.count '{' (s₁ ++ '{' :: (n ++ '}' :: s₂)) = 1 := by
    rw [List.count_append, List.count_cons, List.count_append, List.count_cons]
    rw [List.count_eq_zero.2 (fun hc => (h1 '{' hc).1 rfl)]
    rw [List.count_eq_zero.2 (fun hc => (hn '{' hc).1 rfl)]
    rw [List.count_eq_zero.2 (fun hc => (h2 '{' hc).1 rfl)]
    simp
  have hcc : List.count '}' (s₁ ++ '{' :: (n ++ '}' :: s₂)) = 1 := by
    rw [List.count_append, List.count_cons, List.count_append, List.count_cons]
    rw [List.count_eq_zero.2 (fun hc => (h1 '}' hc).2 rfl)]
    rw [List.count_eq_zero.2 (fun hc => (hn '}' hc).2.1 rfl)]
    rw [List.count_eq_zero.2 (fun hc => (h2 '}' hc).2 rfl)]
    simp
  have hnoO : ¬ (['{', '{'] : Chars) <:+: (s₁ ++ '{' :: (n ++ '}' :: s₂)) := by
    intro hinf
    have := hinf.sublist.count_le '{'
    rw [hco] at this
    simp [List.count_cons] at this
  have hnoC : ¬ (['}', '}'] : Chars) <:+: (s₁ ++ '{' :: (n ++ '}' :: s₂)) := by
    intro hinf
    have := hinf.sublist.count_le '}'
    rw [hcc] at this
    simp [List.count_cons] at this
  unfold extract_placeholders
  rw [replaceAll_of_absent hnoO, replaceAll_of_absent hnoC]
  rw [scanGo_append_left (fun c hc => (h1 c hc).1)]
  rw [scanGo, if_pos rfl]
  rw [scanGo_name_run (fun c hc => (hn c hc).2) [] s₂]
  rw [scanGo_outside_no_open (fun c hc => (h2 c hc).1)]
  rfl

/-! ## Helper lemmas: the full formatter -/

theorem lookupField_ne_missing (args : List Chars) (kwargs : List (Chars × Chars))
    (name : Chars) (st : Option Nat) (ns : List Chars) :
    lookupField args kwargs name st ≠ .error (.missingVars ns) := by
  unfold lookupField
  repeat' split
  all_goals simp

theorem renderStr_ne_missing (v : Chars) (fill align : Option Char)
    (width prec : Option Nat) (rest : Chars) (ns : List Chars) :
    renderStr v fill align width prec rest ≠ .error (.missingVars ns) := by
  unfold renderStr
  repeat' split
  all_goals simp

theorem afterWidth_ne_missing (v : Chars) (fill align : Option Char)
    (width : Option Nat) (r3 : Chars) (ns : List Chars) :
    afterWidth v fill align width r3 ≠ .error (.missingVars ns) := by
  unfold afterWidth
  repeat' split
  all_goals first
    | exact renderStr_ne_missing _ _ _ _ _ _ _
    | simp

theorem afterAlign_ne_missing (v : Chars) (fill align : Option Char)
    (r1 : Chars) (ns : List Chars) :
    afterAlign v fill align r1 ≠ .error (.missingVars ns) := by
  unfold afterAlign afterZero
  repeat' split
  all_goals first
    | exact afterWidth_ne_missing _ _ _ _ _ _
    | simp

theorem formatStr_ne_missing (v spec : Chars) (ns : List Chars) :
    formatStr v spec ≠ .error (.missingVars ns) := by
  unfold formatStr
  repeat' split
  all_goals exact afterAlign_ne_missing _ _ _ _ _

theorem map_preserves_ne {α β : Type} (x : Except FmtErr α) (f : α → β)
    (e : FmtErr) (h : x ≠ .error e) : x.map f ≠ .error e := by
  cases x with
  | ok v => simp [Except.map]
  | error e' => simpa [Except.map] using h

theorem fmtGo_lit_open (args : List Chars) (kwargs : List (Chars × Chars))
    {rest : Chars} (h : rest.head? ≠ some '{') (a : Option Nat) :
    fmtGo args kwargs ('{' :: rest) .literal a
      = fmtGo args kwargs rest (.fieldName []) a :=
  fmtGo.eq_8 args kwargs a rest (fun _ hr => h (by rw [hr]; rfl))

theorem fmtGo_lit_close (args : List Chars) (kwargs : List (Chars × Chars))
    {rest : Chars} (h : rest.head? ≠ some '}') (a : Option Nat) :
    fmtGo args kwargs ('}' :: rest) .literal a
      = .error (.valueErr "single closing brace encountered in format string") :=
  fmtGo.eq_7 args kwargs a rest (fun _ hr => h (by rw [hr]; rfl))

theorem fmtGo_lit_char (args : List Chars) (kwargs : List (Chars × Chars))
    {c : Char} (h1 : c ≠ '{') (h2 : c ≠ '}') (rest : Chars) (a : Option Nat) :
    fmtGo args kwargs (c :: rest) .literal a
      = (fmtGo args kwargs rest .literal a).map (c :: ·) :=
  fmtGo.eq_9 args kwargs a c rest (fun _ hc _ => h1 hc) (fun _ hc _ => h2 hc) h2 h1

theorem fmtGo_field_char (args : List Chars) (kwargs : List (Chars × Chars))
    {c : Char} (h1 : c ≠ '}') (h2 : c ≠ ':') (h3 : c ≠ '{')
    (rest nameRev : Chars) (a : Option Nat) :
    fmtGo args kwargs (c :: rest) (.fieldName nameRev) a
      = fmtGo args kwargs rest (.fieldName (c :: nameRev)) a :=
  fmtGo.eq_13 args kwargs a c rest nameRev h1 h2 h3

theorem fmtGo_spec_char (args : List Chars) (kwargs : List (Chars × Chars))
    {c : Char} (h1 : c ≠ '}') (h2 : c ≠ '{')
    (rest v specRev : Chars) (a : Option Nat) :
    fmtGo args kwargs (c :: rest) (.fieldSpec v specRev) a
      = fmtGo args kwargs rest (.fieldSpec v (c :: specRev)) a :=
  fmtGo.eq_16 args kwargs a c rest v specRev h1 h2

theorem fmtGo_nested_char (args : List Chars) (kwargs : List (Chars × Chars))
    {c : Char} (h1 : c ≠ '}') (h2 : c ≠ ':') (h3 : c ≠ '{')
    (rest v specRev inameRev : Chars) (a : Option Nat) :
    fmtGo args kwargs (c :: rest) (.nestedName v specRev inameRev) a
      = fmtGo args kwargs rest (.nestedName v specRev (c :: inameRev)) a :=
  fmtGo.eq_20 args kwargs a c rest v specRev inameRev h1 h2 h3

theorem fmtGo_ne_missing (args : List Chars) (kwargs : List (Chars × Chars)) :
    ∀ (s : Chars) (st : FmtSt) (a : Option Nat) (ns : List Chars),
      fmtGo args kwargs s st a ≠ .error (.missingVars ns)
  | [], st, a, ns => by cases st <;> simp [fmtGo]
  | c :: rest, .literal, a, ns => by
    by_cases h1 : c = '{'
    · subst h1
      rcases rest with _ | ⟨c2, rest2⟩
      · simp [fmtGo]
      · by_cases h2 : c2 = '{'
        · subst h2
          simp only [fmtGo]
          exact map_preserves_ne _ _ _ (fmtGo_ne_missing args kwargs rest2 .literal a ns)
        · rw [fmtGo_lit_open args kwargs (by simpa using h2) a]
          exact fmtGo_ne_missing args kwargs (c2 :: rest2) (.fieldName []) a ns
    · by_cases h2 : c = '}'
      · subst h2
        rcases rest with _ | ⟨c2, rest2⟩
        · simp [fmtGo]
        · by_cases h3 : c2 = '}'
          · subst h3
            simp only [fmtGo]
            exact map_preserves_ne _ _ _ (fmtGo_ne_missing args kwargs rest2 .literal a ns)
          · rw [fmtGo_lit_close args kwargs (by simpa using h3) a]
            exact fun h => FmtErr.noConfusion (Except.error.inj h)
      · rw [fmtGo_lit_char args kwargs h1 h2 rest a]
        exact map_preserves_ne _ _ _ (fmtGo_ne_missing args kwargs rest .literal a ns)
  | c :: rest, .fieldName nameRev, a, ns => by
    by_cases h1 : c = '}'
    · subst h1
      cases hl : lookupField args kwargs nameRev.reverse a with
      | error e =>
        simp only [fmtGo, hl]
        intro h
        injection h with h2
        exact lookupField_ne_missing args kwargs nameRev.reverse a ns (by rw [hl, h2])
      | ok p =>
        obtain ⟨v, st2⟩ := p
        simp only [fmtGo, hl]
        exact map_preserves_ne _ _ _ (fmtGo_ne_missing args kwargs rest .literal st2 ns)
    · by_cases h2 : c = ':'
      · subst h2
        cases hl : lookupField args kwargs nameRev.reverse a with
        | error e =>
          simp only [fmtGo, hl]
          intro h
          injection h with h3
          exact lookupField_ne_missing args kwargs nameRev.reverse a ns (by rw [hl, h3])
        | ok p =>
          obtain ⟨v, st2⟩ := p
          simp only [fmtGo, hl]
          exact fmtGo_ne_missing args kwargs rest (.fieldSpec v []) st2 ns
      · by_cases h3 : c = '{'
        · subst h3
          simp [fmtGo]
        · rw [fmtGo_field_char args kwargs h1 h2 h3 rest nameRev a]
          exact fmtGo_ne_missing args kwargs rest (.fieldName (c :: nameRev)) a ns
  | c :: rest, .fieldSpec v sp, a, ns => by
    by_cases h1 : c = '}'
    · subst h1
      cases hf : formatStr v sp.reverse with
      | error e =>
        simp only [fmtGo, hf]
        intro h
        injection h with h2
        exact formatStr_ne_missing v sp.reverse ns (by rw [hf, h2])
      | ok r =>
        simp only [fmtGo, hf]
        exact map_preserves_ne _ _ _ (fmtGo_ne_missing args kwargs rest .literal a ns)
    · by_cases h2 : c = '{'
      · subst h2
        simp only [fmtGo]
        exact fmtGo_ne_missing args kwargs rest (.nestedName v sp []) a ns
      · rw [fmtGo_spec_char args kwargs h1 h2 rest v sp a]
        exact fmtGo_ne_missing args kwargs rest (.fieldSpec v (c :: sp)) a ns
  | c :: rest, .nestedName v sp iname, a, ns => by
    by_cases h1 : c = '}'
    · subst h1
      cases hl : lookupField args kwargs iname.reverse a with
      | error e =>
        simp only [fmtGo, hl]
        intro h
        injection h with h2
        exact lookupField_ne_missing args kwargs iname.reverse a ns (by rw [hl, h2])
      | ok p =>
        obtain ⟨w, st2⟩ := p
        simp only [fmtGo, hl]
        exact fmtGo_ne_missing args kwargs rest (.fieldSpec v (w.reverse ++ sp)) st2 ns
    · by_cases h2 : c = ':'
      · subst h2
        simp [fmtGo]
      · by_cases h3 : c = '{'
        · subst h3
          simp [fmtGo]
        · rw [fmtGo_nested_char args kwargs h1 h2 h3 rest v sp iname a]
          exact fmtGo_ne_missing args kwargs rest (.nestedName v sp (c :: iname)) a ns

theorem pyFormat_ne_missing (s : Chars) (args : List Chars)
    (kwargs : List (Chars × Chars)) (ns : List Chars) :
    pyFormat s args kwargs ≠ .error (.missingVars ns) :=
  fmtGo_ne_missing args kwargs s .literal (some 0) ns

theorem lookupField_val (args : List Chars) (kwargs : List (Chars × Chars))
    (name : Chars) (st : Option Nat) (v : Chars) (st2 : Option Nat)
    (h : lookupField args kwargs name st = .ok (v, st2)) :
    v ∈ args ∨ ∃ p ∈ kwargs, p.2 = v := by
  unfold lookupField at h
  split at h
  · split at h
    · simp at h
    · split at h
      · rename_i hget
        injection h with hp
        injection hp with hv _
        exact Or.inl (hv ▸ List.get?_mem hget)
      · simp at h
  · split at h
    · split at h
      · simp at h
      · split at h
        · rename_i hget
          injection h with hp
          injection hp with hv _
          exact Or.inl (hv ▸ List.get?_mem hget)
        · simp at h
    · split at h
      · rename_i hlk
        injection h with hp
        injection hp with hv _
        exact Or.inr ⟨(name, _), lookup_mem hlk, hv⟩
      · simp at h

theorem fmtGo_id (args : List Chars) (kwargs : List (Chars × Chars)) :
    ∀ (s : Chars) (a : Option Nat), (∀ c ∈ s, c ≠ '{' ∧ c ≠ '}') →
      fmtGo args kwargs s .literal a = .ok s
  | [], a => fun _ => rfl
  | c :: rest, a => by
    intro h
    obtain ⟨h1, h2⟩ := h c (List.mem_cons_self c rest)
    rw [fmtGo_lit_char args kwargs h1 h2 rest a]
    rw [fmtGo_id args kwargs rest a (fun d hd => h d (List.mem_cons_of_mem _ hd))]
    rfl

theorem fmtGo_braceFree (args : List Chars) (kwargs : List (Chars × Chars))
    (hargs : ∀ v ∈ args, ∀ c ∈ v, c ≠ '{' ∧ c ≠ '}')
    (hkw : ∀ p ∈ kwargs, ∀ c ∈ p.2, c ≠ '{' ∧ c ≠ '}') :
    ∀ (s : Chars) (st : FmtSt) (a : Option Nat) (out : Chars),
      ¬ (['{', '{'] : Chars) <:+: s → ¬ (['}', '}'] : Chars) <:+: s → ':' ∉ s →
      (st = .literal ∨ ∃ nr, st = .fieldName nr) →
      fmtGo args kwargs s st a = .ok out → ∀ c ∈ out, c ≠ '{' ∧ c ≠ '}'
  | [], st, a, out => by
    intro _ _ _ hst hfmt
    rcases hst with hst | ⟨nr, hst⟩ <;> subst hst
    · simp [fmtGo] at hfmt
      subst hfmt
      simp
    · simp [fmtGo] at hfmt
  | c :: rest, st, a, out => by
    intro hO hC hcol hst hfmt
    have hO2 : ¬ (['{', '{'] : Chars) <:+: rest := fun hi => hO (List.infix_cons hi)
    have hC2 : ¬ (['}', '}'] : Chars) <:+: rest := fun hi => hC (List.infix_cons hi)
    have hcol2 : ':' ∉ rest := fun hm => hcol (List.mem_cons_of_mem _ hm)
    rcases hst with hst | ⟨nr, hst⟩ <;> subst hst
    · by_cases h1 : c = '{'
      · subst h1
        rcases rest with _ | ⟨c2, rest2⟩
        · rw [fmtGo_lit_open args kwargs (by simp) a] at hfmt
          simp [fmtGo] at hfmt
        · by_cases h2 : c2 = '{'
          · subst h2
            exact absurd ⟨[], rest2, by simp⟩ hO
          · rw [fmtGo_lit_open args kwargs (by simpa using h2) a] at hfmt
            exact fmtGo_braceFree args kwargs hargs hkw (c2 :: rest2) (.fieldName []) a out
              hO2 hC2 hcol2 (Or.inr ⟨[], rfl⟩) hfmt
      · by_cases h2 : c = '}'
        · subst h2
          rcases rest with _ | ⟨c2, rest2⟩
          · rw [fmtGo_lit_close args kwargs (by simp) a] at hfmt
            simp at hfmt
          · by_cases h3 : c2 = '}'
            · subst h3
              exact absurd ⟨[], rest2, by simp⟩ hC
            · rw [fmtGo_lit_close args kwargs (by simpa using h3) a] at hfmt
              simp at hfmt
        · rw [fmtGo_lit_char args kwargs h1 h2 rest a] at hfmt
          cases hX : fmtGo args kwargs rest .literal a with
          | error e => rw [hX] at hfmt; simp [Except.map] at hfmt
          | ok o =>
            rw [hX] at hfmt
            simp only [Except.map] at hfmt
            injection hfmt with ho
            subst ho
            intro d hd
            rcases List.mem_cons.1 hd with hdc | hdo
            · subst hdc; exact ⟨h1, h2⟩
            · exact fmtGo_braceFree args kwargs hargs hkw rest .literal a o
                hO2 hC2 hcol2 (Or.inl rfl) hX d hdo
    · by_cases h1 : c = '}'
      · subst h1
        cases hl : lookupField args kwargs nr.reverse a with
        | error e => simp [fmtGo, hl] at hfmt
        | ok p =>
          obtain ⟨v, st2⟩ := p
          simp only [fmtGo, hl] at hfmt
          cases hX : fmtGo args kwargs rest .literal st2 with
          | error e => rw [hX] at hfmt; simp [Except.map] at hfmt
          | ok o =>
            rw [hX] at hfmt
            simp only [Except.map] at hfmt
            injection hfmt with ho
            subst ho
            intro d hd
            rcases List.mem_append.1 hd with hdv | hdo
            · rcases lookupField_val args kwargs nr.reverse a v st2 hl with hv | ⟨q, hq, hq2⟩
              · exact hargs v hv d hdv
              · exact hkw q hq d (by rw [hq2]; exact hdv)
            · exact fmtGo_braceFree args kwargs hargs hkw rest .literal st2 o
                hO2 hC2 hcol2 (Or.inl rfl) hX d hdo
      · by_cases h2 : c = ':'
        · subst h2
          exact absurd (List.mem_cons_self _ _) (fun hm => hcol hm)
        · by_cases h3 : c = '{'
          · subst h3
            simp [fmtGo] at hfmt
          · rw [fmtGo_field_char args kwargs h1 h2 h3 rest nr a] at hfmt
            exact fmtGo_braceFree args kwargs hargs hkw rest (.fieldName (c :: nr)) a out
              hO2 hC2 hcol2 (Or.inr ⟨_, rfl⟩) hfmt

theorem pyFormat_braceFree (args : List Chars) (kwargs : List (Chars × Chars))
    (hargs : ∀ v ∈ args, ∀ c ∈ v, c ≠ '{' ∧ c ≠ '}')
    (hkw : ∀ p ∈ kwargs, ∀ c ∈ p.2, c ≠ '{' ∧ c ≠ '}')
    (s : Chars) (out : Chars)
    (hO : ¬ (['{', '{'] : Chars) <:+: s) (hC : ¬ (['}', '}'] : Chars) <:+: s)
    (hcol : ':' ∉ s) (h : pyFormat s args kwargs = .ok out) :
    ∀ c ∈ out, c ≠ '{' ∧ c ≠ '}' :=
  fmtGo_braceFree args kwargs hargs hkw s .literal (some 0) out hO hC hcol (Or.inl rfl) h

/-! ## Helper lemmas: the partial formatter -/

theorem lookup_eq_none_of_not_key {k : Chars} :
    ∀ {l : List (Chars × Chars)}, k ∉ l.map Prod.fst → l.lookup k = none := by
  intro l
  induction l with
  | nil => intro _; rfl
  | cons p t ih =>
    intro h
    rw [List.lookup]
    split
    · rename_i hbeq
      exact absurd (by simpa using hbeq : k = p.1)
        (by
          intro he
          exact h (by rw [he]; exact List.mem_map_of_mem _ (List.mem_cons_self _ _)))
    · exact ih (fun hm => h (List.mem_cons_of_mem _ hm))

theorem lookupAll_nil_name (args : List Chars) (kwargs : List (Chars × Chars)) :
    lookupAll args kwargs [] = kwargs.lookup [] := by
  unfold lookupAll
  rw [List.find?_eq_none.2 (fun i _ => by simpa using strOfNat_ne_nil i)]

theorem replaceAll_exact_once {pat v s₂ : Chars} (hne : pat.head? = some '{')
    (h2 : '{' ∉ s₂) : replaceAll pat v (pat ++ s₂) = v ++ s₂ := by
  cases pat with
  | nil => simp at hne
  | cons p pr =>
    have hp : p = '{' := by simpa using hne
    subst hp
    show replAux ('{' :: pr) v ('{' :: (pr ++ s₂)) 0 = v ++ s₂
    rw [replAux]
    rw [if_pos ⟨List.isPrefixOf_iff_prefix.2 ⟨s₂, by simp⟩, by simp⟩]
    congr 1
    have hlen : ('{' :: pr).length - 1 = pr.length := by simp
    rw [hlen, replAux_skip ('{' :: pr) v pr s₂]
    show replaceAll ('{' :: pr) v s₂ = s₂
    exact replaceAll_of_absent
      (fun hi => h2 (hi.sublist.subset (List.mem_cons_self _ _)))

theorem partialFormat_single_step {s₁ n s₂ : Chars}
    (h1 : ∀ c ∈ s₁, c ≠ '{' ∧ c ≠ '}')
    (hn : ∀ c ∈ n, c ≠ '{' ∧ c ≠ '}' ∧ c ≠ ':')
    (h2 : ∀ c ∈ s₂, c ≠ '{' ∧ c ≠ '}')
    (hstrip : pyStrip (s₁ ++ '{' :: (n ++ '}' :: s₂)) = s₁ ++ '{' :: (n ++ '}' :: s₂))
    (args : List Chars) (kwargs : List (Chars × Chars)) :
    partialFormat (s₁ ++ '{' :: (n ++ '}' :: s₂)) args kwargs
      = match lookupAll args kwargs n with
        | some v => s₁ ++ v ++ s₂
        | none => s₁ ++ '{' :: (n ++ '}' :: s₂) := by
  unfold partialFormat
  rw [extract_single h1 hn h2, hstrip]
  rw [List.foldl_cons, List.foldl_nil]
  cases hv : lookupAll args kwargs n with
  | none => rfl
  | some v =>
    simp only [List.cons_append]
    have hpat : ('{' :: (n ++ ['}']) : Chars) ++ s₂ = '{' :: (n ++ '}' :: s₂) := by
      simp
    have hocc : containsSub ('{' :: (n ++ ['}'])) (s₁ ++ '{' :: (n ++ '}' :: s₂)) = true := by
      unfold containsSub
      rw [findSub_isSome_iff]
      refine ⟨s₁.length, by omega, ?_⟩
      rw [List.drop_left, ← hpat]
      exact List.prefix_append _ _
    rw [if_pos hocc]
    conv_lhs => rw [← hpat]
    rw [@replaceAll_append_left ('{' :: (n ++ ['}'])) v '{' rfl s₁
      ('{' :: (n ++ ['}']) ++ s₂) (fun hm => (h1 '{' hm).1 rfl)]
    rw [@replaceAll_exact_once ('{' :: (n ++ ['}'])) v s₂ rfl
      (fun hm => (h2 '{' hm).1 rfl)]
    rw [← List.append_assoc]

/-! ## Helper lemmas: dedent -/

theorem splitNl_ne_nil : ∀ (s : Chars), splitNl s ≠ []
  | [] => by simp [splitNl]
  | '\n' :: t => by simp [splitNl]
  | c :: t => by
    by_cases hc : c = '\n'
    · subst hc; simp [splitNl]
    · simp only [splitNl, hc]
      split <;> simp_all [splitNl]

theorem joinNl_cons_ne_nil (l : Chars) (L : List Chars) (h : L ≠ []) :
    joinNl (l :: L) = l ++ '\n' :: joinNl L := by
  match L, h with
  | x :: xs, _ => rfl

theorem joinNl_splitNl : ∀ (s : Chars), joinNl (splitNl s) = s
  | [] => rfl
  | c :: t => by
    by_cases hc : c = '\n'
    · subst hc
      have hred : splitNl ('\n' :: t) = [] :: splitNl t := rfl
      rw [hred, joinNl_cons_ne_nil [] _ (splitNl_ne_nil t), List.nil_append,
        joinNl_splitNl t]
    · match hs : splitNl t, splitNl_ne_nil t with
      | [], hne => exact absurd rfl hne
      | l :: ls, _ =>
        have hred : splitNl (c :: t) = (c :: l) :: ls := by
          simp [splitNl, hc, hs]
        rw [hred]
        cases ls with
        | nil =>
          show c :: l = c :: t
          have h2 := joinNl_splitNl t
          rw [hs] at h2
          show (c :: l : Chars) = c :: t
          rw [show joinNl [l] = l from rfl] at h2
          rw [h2]
        | cons y ys =>
          rw [joinNl_cons_ne_nil (c :: l) (y :: ys) (by simp)]
          have h2 := joinNl_splitNl t
          rw [hs, joinNl_cons_ne_nil l (y :: ys) (by simp)] at h2
          rw [List.cons_append, h2]

theorem mem_splitNl_chars : ∀ {s l : Chars}, l ∈ splitNl s → ∀ {c : Char}, c ∈ l → c ∈ s := by
  intro s
  induction s with
  | nil =>
    intro l hl c hc
    simp [splitNl] at hl
    subst hl
    simp at hc
  | cons c0 t ih =>
    intro l hl c hc
    by_cases hc0 : c0 = '\n'
    · subst hc0
      rw [show splitNl ('\n' :: t) = [] :: splitNl t from rfl] at hl
      rcases List.mem_cons.1 hl with h | h
      · subst h; simp at hc
      · exact List.mem_cons_of_mem _ (ih h hc)
    · match hs : splitNl t, splitNl_ne_nil t with
      | [], hne => exact absurd rfl hne
      | l0 :: ls0, _ =>
        rw [show splitNl (c0 :: t) = (c0 :: l0) :: ls0 by simp [splitNl, hc0, hs]] at hl
        rcases List.mem_cons.1 hl with h | h
        · subst h
          rcases List.mem_cons.1 hc with h2 | h2
          · subst h2; exact List.mem_cons_self _ _
          · refine List.mem_cons_of_mem _ (ih ?_ h2)
            rw [hs]
            exact List.mem_cons_self _ _
        · refine List.mem_cons_of_mem _ (ih ?_ hc)
          rw [hs]
          exact List.mem_cons_of_mem _ h

theorem mem_joinNl : ∀ {L : List Chars} {c : Char},
    c ∈ joinNl L → c = '\n' ∨ ∃ l ∈ L, c ∈ l := by
  intro L
  induction L with
  | nil => intro c hc; simp [joinNl] at hc
  | cons l ls ih =>
    intro c hc
    cases ls with
    | nil =>
      right
      exact ⟨l, List.mem_cons_self _ _, hc⟩
    | cons y ys =>
      rw [joinNl_cons_ne_nil l (y :: ys) (by simp)] at hc
      rcases List.mem_append.1 hc with h | h
      · exact Or.inr ⟨l, List.mem_cons_self _ _, h⟩
      · rcases List.mem_cons.1 h with h2 | h2
        · exact Or.inl h2
        · rcases ih h2 with h3 | ⟨l2, hl2, hc2⟩
          · exact Or.inl h3
          · exact Or.inr ⟨l2, List.mem_cons_of_mem _ hl2, hc2⟩

theorem dedent_ws {raw : Chars} (h : ∀ c ∈ raw, isPyWs c) :
    ∀ c ∈ dedent raw, isPyWs c := by
  intro c hc
  unfold dedent at hc
  rcases mem_joinNl hc with hnl | ⟨l, hl, hcl⟩
  · subst hnl; rfl
  · have hline : ∀ l2, l2 ∈ (splitNl raw).map wsOnlyToEmpty → ∀ d ∈ l2, isPyWs d := by
      intro l2 hl2 d hd
      rcases List.mem_map.1 hl2 with ⟨l0, hl0, heq⟩
      subst heq
      unfold wsOnlyToEmpty at hd
      split at hd
      · simp at hd
      · exact h d (mem_splitNl_chars hl0 hd)
    unfold dedentStrip at hl
    split at hl
    · exact hline l hl c hcl
    · rcases List.mem_map.1 hl with ⟨l0, hl0, heq⟩
      subst heq
      split at hcl
      · exact hline l0 hl0 c ((List.drop_sublist _ _).subset hcl)
      · exact hline l0 hl0 c hcl

theorem foldl_lcp_nil : ∀ (L : List Chars), L.foldl lcp [] = []
  | [] => rfl
  | x :: r => by
    rw [List.foldl_cons, show lcp [] x = [] from rfl]
    exact foldl_lcp_nil r

theorem dedent_eq_self {c0 : Char} {t raw : Chars} (hraw : raw = c0 :: t)
    (hc0st : ¬ isSpaceTab c0) (hc0nl : c0 ≠ '\n')
    (hnws : ∀ l ∈ splitNl raw, ¬(l ≠ [] ∧ l.all isSpaceTab)) : dedent raw = raw := by
  have hemp : (splitNl raw).map wsOnlyToEmpty = splitNl raw := by
    have : ∀ l ∈ splitNl raw, wsOnlyToEmpty l = id l := by
      intro l hl
      unfold wsOnlyToEmpty
      rw [if_neg (hnws l hl)]
      rfl
    rw [List.map_congr_left this, List.map_id]
  unfold dedent
  rw [hemp]
  subst hraw
  match hs : splitNl t, splitNl_ne_nil t with
  | [], hne => exact absurd rfl hne
  | l0 :: ls0, _ =>
    have hred : splitNl (c0 :: t) = (c0 :: l0) :: ls0 := by
      simp [splitNl, hc0nl, hs]
    rw [hred]
    have hind : dedentIndents ((c0 :: l0) :: ls0)
        = [] :: dedentIndents ls0 := by
      unfold dedentIndents
      rw [List.filterMap_cons]
      have hany : (c0 :: l0).any (fun c => ¬ isSpaceTab c) = true := by
        simp only [List.any_cons]
        simp [hc0st]
      rw [if_pos hany]
      rw [show (c0 :: l0).takeWhile isSpaceTab = [] from by
        rw [List.takeWhile_cons_of_neg (by simpa using hc0st)]]
    rw [hind]
    have hmargin : dedentMargin ([] :: dedentIndents ls0) = [] := by
      unfold dedentMargin
      exact foldl_lcp_nil _
    rw [hmargin]
    rw [show dedentStrip [] ((c0 :: l0) :: ls0) = (c0 :: l0) :: ls0 from rfl]
    rw [← hred, joinNl_splitNl]

/-! ## Helper lemmas: the splitter and the parser -/

theorem splitFM_none {raw : Chars} (h : ¬ DELIM <+: raw) :
    splitFrontMatter raw = .ok (none, raw) := by
  unfold splitFrontMatter
  rw [if_pos]
  simpa [List.isPrefixOf_iff_prefix] using h

theorem splitFM_no_close {raw : Chars} (hpre : DELIM <+: raw)
    (hno : ∀ i, 3 ≤ i → ¬ DELIM <+: raw.drop i) :
    splitFrontMatter raw = .error .malformedHeader := by
  unfold splitFrontMatter
  rw [if_neg (by simpa [List.isPrefixOf_iff_prefix] using hpre)]
  cases hf : findSub DELIM raw DELIM.length with
  | none => rfl
  | some k =>
    obtain ⟨hk3, hkp, _⟩ := findSub_some hf
    exact absurd hkp (hno k hk3)

theorem splitFM_found {raw : Chars} {i : Nat} (hpre : DELIM <+: raw) (h3 : 3 ≤ i)
    (hocc : DELIM <+: raw.drop i)
    (hmin : ∀ j, 3 ≤ j → j < i → ¬ DELIM <+: raw.drop j) :
    splitFrontMatter raw
      = .ok (some (pyStrip ((raw.drop 3).take (i - 3))), lstripNl (raw.drop (i + 3))) := by
  unfold splitFrontMatter
  rw [if_neg (by simpa [List.isPrefixOf_iff_prefix] using hpre)]
  have hf : findSub DELIM raw DELIM.length = some i := by
    cases hf : findSub DELIM raw DELIM.length with
    | none => exact absurd hocc (findSub_none hf i h3)
    | some k =>
      obtain ⟨hk3, hkp, hkmin⟩ := findSub_some hf
      rcases Nat.lt_trichotomy k i with hlt | heq | hgt
      · exact absurd hkp (hmin k hk3 hlt)
      · rw [heq]
      · exact absurd hocc (hkmin i h3 hgt)
  rw [hf]
  have hdl : DELIM.length = 3 := rfl
  simp only [hdl]

theorem not_delim_prefix_of_ws {raw : Chars} (h : ∀ c ∈ raw, isPyWs c) :
    ¬ DELIM <+: raw := by
  intro hp
  have hm : '-' ∈ raw := hp.subset (by decide)
  exact absurd (h '-' hm) (by decide)

theorem mkPrompt_ok {meta : PromptMeta} {body : Chars} {res : PromptR}
    (h : mkPrompt meta body = .ok res) :
    res = ⟨meta, body⟩ ∧ pyStrip body ≠ [] := by
  unfold mkPrompt at h
  split at h
  · simp at h
  · rename_i hne
    injection h with h2
    exact ⟨h2.symm, hne⟩

theorem finish_ok {stem : Chars} {meta : PromptMeta} {body : Chars} {res : PromptR}
    {w : Bool} (h : parseFile.finish stem meta body = .ok (res, w)) :
    res = ⟨if meta.title = none then { meta with title := some stem } else meta,
      dedent body⟩ ∧ w = false ∧ pyStrip (dedent body) ≠ [] := by
  simp only [parseFile.finish] at h
  cases hm : mkPrompt
      (if meta.title = none then { meta with title := some stem } else meta)
      (dedent body) with
  | error e => rw [hm] at h; simp [Except.map] at h
  | ok p =>
    rw [hm] at h
    simp only [Except.map] at h
    injection h with hpair
    obtain ⟨hp, hne⟩ := mkPrompt_ok hm
    have hres : p = res := congrArg Prod.fst hpair
    have hw : false = w := congrArg Prod.snd hpair
    exact ⟨hres ▸ hp, hw.symm, hne⟩

/-! ## Claim C3: the placeholder scanner contract -/

/-- C3: the placeholder scanner returns exactly the distinct names of
single-brace groups not part of an escaped pair — on the spec's four
examples it yields the stated sets — each name is the text before an
optional colon-prefixed format specifier (so it never contains a closing
brace or a colon), and duplicates collapse into one set entry. The scanner
is a total function, modelling that it never raises. -/
theorem c3_scanner_contract :
    extract_placeholders "Hello \x7bname\x7d!".data = ["name".data]
    ∧ extract_placeholders "\x7b\x7blit\x7d\x7d \x7bx\x7d".data = ["x".data]
    ∧ extract_placeholders "\x7b0\x7d \x7b1\x7d".data = ["0".data, "1".data]
    ∧ extract_placeholders "Hello \x7b\x7d".data = [[]]
    ∧ (∀ t : Chars, (extract_placeholders t).Nodup)
    ∧ (∀ t : Chars, ∀ n ∈ extract_placeholders t, ∀ c ∈ n, c ≠ '}' ∧ c ≠ ':') :=
  ⟨by decide, by decide, by decide, by decide,
    extract_placeholders_nodup, fun _ => extract_placeholders_clean⟩

/-- Witness for C3 at a concrete input: the name of the only placeholder of
a concrete template contains no closing brace and no colon. -/
theorem c3_scanner_contract_witness :
    ('n' ≠ '}' ∧ 'n' ≠ ':') ∧ extract_placeholders "Hello \x7b\x7d".data = [[]] :=
  ⟨c3_scanner_contract.2.2.2.2.2 "Hello \x7bname\x7d!".data "name".data
    (by decide) 'n' (by decide), c3_scanner_contract.2.2.2.1⟩

/-! ## Claim C4: the front-matter splitter -/

/-- C4: a raw text not starting with the three-dash delimiter splits into no
header and the whole text as body, with no error; a text starting with the
delimiter but with no second delimiter occurrence beginning at index 3 or
later fails with MalformedHeaderError; otherwise, with the first such
occurrence at index i, the header is the text strictly between the two
delimiters with outer whitespace stripped and the body is the text after
the second delimiter with leading newlines (and nothing else) removed. -/
theorem c4_split_front_matter :
    (∀ raw : Chars, ¬ DELIM <+: raw → splitFrontMatter raw = .ok (none, raw))
    ∧ (∀ raw : Chars, DELIM <+: raw → (∀ i, 3 ≤ i → ¬ DELIM <+: raw.drop i) →
        splitFrontMatter raw = .error .malformedHeader)
    ∧ (∀ (raw : Chars) (i : Nat), DELIM <+: raw → 3 ≤ i → DELIM <+: raw.drop i →
        (∀ j, 3 ≤ j → j < i → ¬ DELIM <+: raw.drop j) →
        splitFrontMatter raw
          = .ok (some (pyStrip ((raw.drop 3).take (i - 3))), lstripNl (raw.drop (i + 3)))) :=
  ⟨fun _ h => splitFM_none h, fun _ h1 h2 => splitFM_no_close h1 h2,
    fun _ _ h1 h2 h3 h4 => splitFM_found h1 h2 h3 h4⟩

/-- Witness for C4: a concrete file with header and body splits as stated,
through the third conjunct at the second delimiter index 6. -/
theorem c4_split_front_matter_witness :
    splitFrontMatter "---\na\n---\nb".data = .ok (some "a".data, "b".data) := by
  have h := c4_split_front_matter.2.2 "---\na\n---\nb".data 6 (by decide) (by decide)
    (by decide)
    (by
      intro j h1 h2
      have : j = 3 ∨ j = 4 ∨ j = 5 := by omega
      rcases this with h | h | h <;> subst h <;> decide)
  rw [h]
  decide

/-! ## Claim C5: STRICT-mode metadata checks -/

theorem finish_ok_title {stem : Chars} {meta : PromptMeta} {body : Chars}
    {res : PromptR} {w : Bool} (h : parseFile.finish stem meta body = .ok (res, w)) :
    res.meta.title ≠ none := by
  obtain ⟨hres, _, _⟩ := finish_ok h
  subst hres
  by_cases ht : meta.title = none
  · simp [ht]
  · simpa [ht] using ht

theorem finish_meta_fields {stem : Chars} {data : List (Chars × Chars)} {b : Chars}
    {res : PromptR} {w : Bool}
    (h : parseFile.finish stem (metaFromData data) b = .ok (res, w)) :
    res.meta.version = data.lookup "version".data
    ∧ res.meta.author = data.lookup "author".data
    ∧ res.meta.created = data.lookup "created".data
    ∧ res.meta.description = data.lookup "description".data
    ∧ res.meta.title = some ((data.lookup "title".data).getD stem)
    ∧ res.prompt = dedent b := by
  obtain ⟨hres, _, _⟩ := finish_ok h
  subst hres
  by_cases ht : (metaFromData data).title = none
  · have hl : data.lookup "title".data = none := by simpa [metaFromData] using ht
    simp [ht, metaFromData, hl]
  · have hl : data.lookup "title".data ≠ none := by simpa [metaFromData] using ht
    cases hv : data.lookup "title".data with
    | none => exact absurd hv hl
    | some t => simp [ht, metaFromData, hv]

/-- C5: with a present header that the TOML parser accepts as `data`, STRICT
mode first requires the three fields title, description, version as keys,
failing with an InvalidMetadataError that names every missing field in
sorted order; when all are present it requires each, after trimming, to be
non-empty, failing with an InvalidMetadataError that names every empty
field in sorted order; only when both checks pass does parsing proceed to
build the metadata record from the header. -/
theorem c5_strict_metadata_checks :
    ∀ (tp : Chars → Except Chars (List (Chars × Chars))) (wf : Bool)
      (stem raw h b : Chars) (data : List (Chars × Chars)),
      splitFrontMatter raw = .ok (some h, b) → tp h = .ok data →
      (sortNames (requiredFields.filter (fun f => data.lookup f = none)) ≠ [] →
        parseFile tp wf .strict stem raw
          = .error (.invalidMetaMissing
              (sortNames (requiredFields.filter (fun f => data.lookup f = none)))))
      ∧ (sortNames (requiredFields.filter (fun f => data.lookup f = none)) = [] →
          sortNames (requiredFields.filter (fun f =>
            match data.lookup f with
            | some v => pyStrip v = []
            | none => true)) ≠ [] →
          parseFile tp wf .strict stem raw
            = .error (.invalidMetaEmpty
                (sortNames (requiredFields.filter (fun f =>
                  match data.lookup f with
                  | some v => pyStrip v = []
                  | none => true)))))
      ∧ (sortNames (requiredFields.filter (fun f => data.lookup f = none)) = [] →
          sortNames (requiredFields.filter (fun f =>
            match data.lookup f with
            | some v => pyStrip v = []
            | none => true)) = [] →
          parseFile tp wf .strict stem raw
            = parseFile.finish stem (metaFromData data) b) := by
  intro tp wf stem raw h b data hsplit htp
  refine ⟨?_, ?_, ?_⟩
  · intro hne
    simp only [parseFile, hsplit, htp]
    rw [if_pos trivial, if_pos hne]
  · intro hmiss hemp
    simp only [parseFile, hsplit, htp]
    rw [if_pos trivial, if_neg (by simpa using hmiss), if_pos hemp]
  · intro hmiss hemp
    simp only [parseFile, hsplit, htp]
    rw [if_pos trivial, if_neg (by simpa using hmiss), if_neg (by simpa using hemp)]

/-- Witness for C5 at the claim's concrete case: a header carrying
title "A", description "B" and an empty version fails in STRICT mode
naming version as the empty field. -/
theorem c5_strict_metadata_checks_witness :
    parseFile (fun _ => .ok [("title".data, "A".data), ("description".data, "B".data),
        ("version".data, [])]) true .strict "p".data "---\nx\n---\nbody".data
      = .error (.invalidMetaEmpty ["version".data]) := by
  have h := ((c5_strict_metadata_checks
      (fun _ => .ok [("title".data, "A".data), ("description".data, "B".data),
        ("version".data, [])]) true "p".data "---\nx\n---\nbody".data
      "x".data "body".data
      [("title".data, "A".data), ("description".data, "B".data), ("version".data, [])]
      (by decide) rfl).2.1) (by decide) (by decide)
  rw [h]
  decide

/-! ## Claim C6: the error surfaced for a missing closing delimiter -/

/-- C6 counterexample: a file that begins with the delimiter but has no
closing delimiter surfaces an InvalidMetadataError (the wrapper suggesting
IGNORE mode), not a MalformedHeaderError, to the caller of the load
operation. -/
theorem c6_counterexample :
    parseFile tpNone true .allow "p".data "---\nfoo".data = .error .invalidMetaWrapped
    ∧ TPError.invalidMetaWrapped ≠ TPError.malformedHeader
    ∧ TPError.invalidMetaWrapped.isInvalidMetadata = true := by
  decide

/-- C6 (amended): in STRICT and ALLOW modes, a raw text beginning with the
delimiter with no second delimiter occurrence makes the load fail with the
InvalidMetadataError wrapper (the parser catches the splitter's
MalformedHeaderError and re-raises, since such a text always starts with
the delimiter); the error kinds remain distinct in the taxonomy. -/
theorem c6_missing_close_surfaced :
    (∀ (tp : Chars → Except Chars (List (Chars × Chars))) (wf : Bool)
        (mode : MetadataMode) (stem raw : Chars), mode ≠ .ignore → DELIM <+: raw →
        (∀ i, 3 ≤ i → ¬ DELIM <+: raw.drop i) →
        parseFile tp wf mode stem raw = .error .invalidMetaWrapped)
    ∧ TPError.invalidMetaWrapped.isInvalidMetadata = true
    ∧ TPError.malformedHeader.isInvalidMetadata = false := by
  refine ⟨?_, rfl, rfl⟩
  intro tp wf mode stem raw hmode hpre hno
  have hsp := splitFM_no_close hpre hno
  cases mode with
  | ignore => exact absurd rfl hmode
  | strict =>
    simp only [parseFile, hsp]
    rw [if_pos (List.isPrefixOf_iff_prefix.2 hpre)]
  | allow =>
    simp only [parseFile, hsp]
    rw [if_pos (List.isPrefixOf_iff_prefix.2 hpre)]

/-- Witness for C6 at a concrete file with an unclosed header. -/
theorem c6_missing_close_surfaced_witness :
    parseFile tpNone false .strict "p".data "---\nfoo".data
      = .error .invalidMetaWrapped := by
  refine c6_missing_close_surfaced.1 tpNone false .strict "p".data "---\nfoo".data
    (by decide) (by decide) ?_
  intro i h3 hp
  have hl := hp.length_le
  simp [DELIM] at hl
  have : i = 3 ∨ i = 4 := by omega
  rcases this with h | h <;> subst h <;> revert hp <;> decide

/-! ## Claim C7: the title is always present -/

/-- C7: after every successful parse in any mode the metadata's title is
present; ALLOW mode on a headerless file succeeds (when the dedented body
is non-empty) with exactly the stem as title and every other field absent;
and with a parsed header the final fields are exactly the header's values,
with only the title defaulted to the stem when the header lacks it. -/
theorem c7_title_invariant :
    (∀ (tp : Chars → Except Chars (List (Chars × Chars))) (wf : Bool)
        (mode : MetadataMode) (stem raw : Chars) (res : PromptR) (w : Bool),
        parseFile tp wf mode stem raw = .ok (res, w) → res.meta.title ≠ none)
    ∧ (∀ (tp : Chars → Except Chars (List (Chars × Chars))) (wf : Bool)
        (stem raw : Chars), ¬ DELIM <+: raw → pyStrip (dedent raw) ≠ [] →
        parseFile tp wf .allow stem raw
          = .ok (⟨{ title := some stem }, dedent raw⟩, false))
    ∧ (∀ (tp : Chars → Except Chars (List (Chars × Chars))) (wf : Bool)
        (mode : MetadataMode) (stem raw h b : Chars) (data : List (Chars × Chars))
        (res : PromptR) (w : Bool), mode ≠ .ignore →
        splitFrontMatter raw = .ok (some h, b) → tp h = .ok data →
        parseFile tp wf mode stem raw = .ok (res, w) →
        res.meta.version = data.lookup "version".data
        ∧ res.meta.author = data.lookup "author".data
        ∧ res.meta.created = data.lookup "created".data
        ∧ res.meta.description = data.lookup "description".data
        ∧ res.meta.title = some ((data.lookup "title".data).getD stem)
        ∧ res.prompt = dedent b) := by
  refine ⟨?_, ?_, ?_⟩
  · intro tp wf mode stem raw res w hok
    cases mode with
    | ignore =>
      simp only [parseFile] at hok
      cases hm : mkPrompt { title := some stem } (dedent raw) with
      | error e => rw [hm] at hok; simp [Except.map] at hok
      | ok p =>
        rw [hm] at hok
        simp only [Except.map] at hok
        injection hok with hpair
        obtain ⟨hp, _⟩ := mkPrompt_ok hm
        have hres : p = res := congrArg Prod.fst hpair
        rw [← hres, hp]
        simp
    | strict =>
      simp only [parseFile] at hok
      split at hok
      · split at hok <;> simp at hok
      · split at hok
        · split at hok
          · simp at hok
          · first | rw [if_pos trivial] at hok | rw [if_pos rfl] at hok
            split at hok
            · simp at hok
            · split at hok
              · simp at hok
              · exact finish_ok_title hok
        · first | rw [if_pos trivial] at hok | rw [if_pos rfl] at hok
          simp at hok
    | allow =>
      simp only [parseFile] at hok
      split at hok
      · split at hok <;> simp at hok
      · split at hok
        · split at hok
          · simp at hok
          · first
            | rw [if_neg not_false] at hok
            | rw [if_neg (fun hn => MetadataMode.noConfusion hn)] at hok
            exact finish_ok_title hok
        · first
            | rw [if_neg not_false] at hok
            | rw [if_neg (fun hn => MetadataMode.noConfusion hn)] at hok
          exact finish_ok_title hok
  · intro tp wf stem raw hpre hne
    simp only [parseFile, splitFM_none hpre]
    first
    | rw [if_neg not_false]
    | rw [if_neg (fun hn => MetadataMode.noConfusion hn)]
    simp only [parseFile.finish]
    first
    | rw [if_pos trivial]
    | rw [if_pos (rfl : (({} : PromptMeta)).title = none)]
    unfold mkPrompt
    rw [if_neg hne]
    rfl
  · intro tp wf mode stem raw h b data res w hmode hsplit htp hok
    cases mode with
    | ignore => exact absurd rfl hmode
    | strict =>
      simp only [parseFile, hsplit, htp] at hok
      first | rw [if_pos trivial] at hok | rw [if_pos rfl] at hok
      split at hok
      · simp at hok
      · split at hok
        · simp at hok
        · exact finish_meta_fields hok
    | allow =>
      simp only [parseFile, hsplit, htp] at hok
      first
            | rw [if_neg not_false] at hok
            | rw [if_neg (fun hn => MetadataMode.noConfusion hn)] at hok
      exact finish_meta_fields hok

/-- Witness for C7: ALLOW mode on a headerless concrete file returns the
stem as title, no other metadata, and the file text as body. -/
theorem c7_title_invariant_witness :
    parseFile tpNone true .allow "p".data "hello world".data
      = .ok (⟨{ title := some "p".data }, "hello world".data⟩, false) := by
  have h := c7_title_invariant.2.1 tpNone true "p".data "hello world".data
    (by decide) (by decide)
  rw [h]
  decide

/-! ## Claim C8: the body is never empty -/

/-- C8 counterexample: a file containing only whitespace does not fail with
the body-empty error in STRICT mode; the missing-metadata check runs first
and its error is a different kind. -/
theorem c8_counterexample :
    parseFile tpNone true .strict "p".data "   \n  ".data = .error .missingMetadata
    ∧ TPError.missingMetadata ≠ TPError.bodyEmpty := by
  decide

/-- C8 (amended): every successfully constructed prompt has a body whose
trimmed text is non-empty, and a whitespace-only file fails with the
body-empty error in IGNORE and ALLOW modes — but in STRICT mode it fails
with the missing-metadata error instead, since no whitespace-only text
starts with the delimiter and the metadata requirement is checked before
the body is validated. -/
theorem c8_body_nonempty :
    (∀ (tp : Chars → Except Chars (List (Chars × Chars))) (wf : Bool)
        (mode : MetadataMode) (stem raw : Chars) (res : PromptR) (w : Bool),
        parseFile tp wf mode stem raw = .ok (res, w) → pyStrip res.prompt ≠ [])
    ∧ (∀ (tp : Chars → Except Chars (List (Chars × Chars))) (wf : Bool)
        (stem raw : Chars), (∀ c ∈ raw, isPyWs c) →
        parseFile tp wf .ignore stem raw = .error .bodyEmpty
        ∧ parseFile tp wf .allow stem raw = .error .bodyEmpty
        ∧ parseFile tp wf .strict stem raw = .error .missingMetadata) := by
  constructor
  · intro tp wf mode stem raw res w hok
    cases mode with
    | ignore =>
      simp only [parseFile] at hok
      cases hm : mkPrompt { title := some stem } (dedent raw) with
      | error e => rw [hm] at hok; simp [Except.map] at hok
      | ok p =>
        rw [hm] at hok
        simp only [Except.map] at hok
        injection hok with hpair
        obtain ⟨hp, hne⟩ := mkPrompt_ok hm
        have hres : p = res := congrArg Prod.fst hpair
        rw [← hres, hp]
        exact hne
    | strict =>
      simp only [parseFile] at hok
      split at hok
      · split at hok <;> simp at hok
      · split at hok
        · split at hok
          · simp at hok
          · first | rw [if_pos trivial] at hok | rw [if_pos rfl] at hok
            split at hok
            · simp at hok
            · split at hok
              · simp at hok
              · obtain ⟨hres, _, hne⟩ := finish_ok hok
                rw [hres]
                exact hne
        · first | rw [if_pos trivial] at hok | rw [if_pos rfl] at hok
          simp at hok
    | allow =>
      simp only [parseFile] at hok
      split at hok
      · split at hok <;> simp at hok
      · split at hok
        · split at hok
          · simp at hok
          · first
            | rw [if_neg not_false] at hok
            | rw [if_neg (fun hn => MetadataMode.noConfusion hn)] at hok
            obtain ⟨hres, _, hne⟩ := finish_ok hok
            rw [hres]
            exact hne
        · first
          | rw [if_neg not_false] at hok
          | rw [if_neg (fun hn => MetadataMode.noConfusion hn)] at hok
          obtain ⟨hres, _, hne⟩ := finish_ok hok
          rw [hres]
          exact hne
  · intro tp wf stem raw hws
    have hstrip : pyStrip (dedent raw) = [] :=
      pyStrip_eq_nil_iff.2 (dedent_ws hws)
    have hpre : ¬ DELIM <+: raw := not_delim_prefix_of_ws hws
    refine ⟨?_, ?_, ?_⟩
    · simp only [parseFile]
      unfold mkPrompt
      rw [if_pos hstrip]
      rfl
    · simp only [parseFile, splitFM_none hpre]
      first
      | rw [if_neg not_false]
      | rw [if_neg (fun hn => MetadataMode.noConfusion hn)]
      simp only [parseFile.finish]
      first
      | rw [if_pos trivial]
      | rw [if_pos (rfl : (({} : PromptMeta)).title = none)]
      unfold mkPrompt
      rw [if_pos hstrip]
      rfl
    · simp only [parseFile, splitFM_none hpre]
      first
      | rw [if_pos trivial]
      | rw [if_pos rfl]

/-- Witness for C8 on the concrete whitespace-only file of two blank lines. -/
theorem c8_body_nonempty_witness :
    parseFile tpNone true .ignore "p".data "   \n  ".data = .error .bodyEmpty
    ∧ parseFile tpNone true .allow "p".data "   \n  ".data = .error .bodyEmpty
    ∧ parseFile tpNone true .strict "p".data "   \n  ".data
        = .error .missingMetadata :=
  c8_body_nonempty.2 tpNone true "p".data "   \n  ".data (by decide)

/-! ## Claim C9: IGNORE mode -/

/-- C9 counterexample: in IGNORE mode with the warning flag enabled, a file
whose first line is the delimiter but that has no second delimiter raises
no advisory warning (the recorded warning bit is false), although the claim
says the warning is surfaced exactly when the text starts with the
delimiter and the flag is enabled. -/
theorem c9_counterexample :
    parseFile tpNone true .ignore "p".data "---\nhello".data
      = .ok (⟨{ title := some "p".data }, "---\nhello".data⟩, false)
    ∧ DELIM <+: "---\nhello".data := by
  decide

/-- C9 (amended): IGNORE mode never consults the TOML parser; on success the
body is the entire raw text dedented, the metadata carries only the
filename-derived title, and the advisory warning fires exactly when the
flag is enabled, the raw text starts with the delimiter AND a second
delimiter occurrence exists at index 3 or later. -/
theorem c9_ignore_mode :
    (∀ (tp tp2 : Chars → Except Chars (List (Chars × Chars))) (wf : Bool)
        (stem raw : Chars),
        parseFile tp wf .ignore stem raw = parseFile tp2 wf .ignore stem raw)
    ∧ (∀ (tp : Chars → Except Chars (List (Chars × Chars))) (wf : Bool)
        (stem raw : Chars) (res : PromptR) (w : Bool),
        parseFile tp wf .ignore stem raw = .ok (res, w) →
        res.prompt = dedent raw ∧ res.meta = { title := some stem }
        ∧ (w = true ↔ wf = true ∧ DELIM <+: raw
            ∧ ∃ i, 3 ≤ i ∧ DELIM <+: raw.drop i)) := by
  constructor
  · intro tp tp2 wf stem raw
    rfl
  · intro tp wf stem raw res w hok
    simp only [parseFile] at hok
    cases hm : mkPrompt { title := some stem } (dedent raw) with
    | error e => rw [hm] at hok; simp [Except.map] at hok
    | ok p =>
      rw [hm] at hok
      simp only [Except.map] at hok
      injection hok with hpair
      obtain ⟨hp, _⟩ := mkPrompt_ok hm
      have hres : p = res := congrArg Prod.fst hpair
      have hw : (wf && DELIM.isPrefixOf raw && (findSub DELIM raw DELIM.length).isSome)
          = w := congrArg Prod.snd hpair
      rw [← hres, hp]
      refine ⟨rfl, rfl, ?_⟩
      rw [← hw]
      simp only [Bool.and_eq_true, List.isPrefixOf_iff_prefix, findSub_isSome_iff]
      constructor
      · rintro ⟨⟨h1, h2⟩, j, hj, hpj⟩
        exact ⟨h1, h2, j, hj, hpj⟩
      · rintro ⟨h1, h2, j, hj, hpj⟩
        exact ⟨⟨h1, h2⟩, j, hj, hpj⟩

/-- Witness for C9: on a concrete IGNORE-mode parse that succeeds with the
warning bit set, the body keeps the delimiter lines and the warning
condition includes the second delimiter occurrence. -/
theorem c9_ignore_mode_witness :
    "---\na\n---\nb".data = dedent "---\na\n---\nb".data
    ∧ (true = true ↔ true = true ∧ DELIM <+: "---\na\n---\nb".data
        ∧ ∃ i, 3 ≤ i ∧ DELIM <+: List.drop i "---\na\n---\nb".data) := by
  have h := c9_ignore_mode.2 tpNone true "p".data "---\na\n---\nb".data
    ⟨{ title := some "p".data }, "---\na\n---\nb".data⟩ true (by decide)
  exact ⟨h.1.symm, h.2.2⟩

/-! ## Claim C10: stripping before substitution -/

/-- C10 counterexample: formatting the placeholder-free template
"  \x7b\x7blit-style\x7d\x7d  " does not return the trimmed text: the escaped braces are
also collapsed by the substitution pass, so the result differs from the
trimmed template. -/
theorem c10_counterexample :
    extract_placeholders "  \x7b\x7b\x7d\x7d  ".data = []
    ∧ promptFormat "  \x7b\x7b\x7d\x7d  ".data [] [] false = .ok ['{', '}']
    ∧ pyStrip "  \x7b\x7b\x7d\x7d  ".data = ['{', '{', '}', '}']
    ∧ (['{', '}'] : Chars) ≠ ['{', '{', '}', '}'] := by
  decide

theorem validate_eq (placeholders : List Chars) (args : List Chars)
    (kwargs : List (Chars × Chars)) :
    validate_format_args placeholders args kwargs false
      = if missingVarsOf placeholders args kwargs ≠ []
        then .error (.missingVars (missingVarsOf placeholders args kwargs))
        else .ok () := rfl

/-- C10 (amended): format does strip the template before substituting, in
both modes — formatting a template and formatting its trimmed text agree —
and on a template containing no brace at all the validated mode returns
exactly the trimmed text; but a placeholder-free template containing
escaped braces comes back with the escapes collapsed, not as the trimmed
text. -/
theorem c10_strip_before_substitution :
    (∀ (t : Chars) (args : List Chars) (kwargs : List (Chars × Chars)) (sk : Bool),
        promptFormat t args kwargs sk = promptFormat (pyStrip t) args kwargs sk)
    ∧ (∀ (t : Chars) (args : List Chars) (kwargs : List (Chars × Chars)),
        (∀ c ∈ t, c ≠ '{' ∧ c ≠ '}') →
        promptFormat t args kwargs false = .ok (pyStrip t)) := by
  constructor
  · intro t args kwargs sk
    unfold promptFormat partialFormat
    rw [extract_pyStrip, pyStrip_idem]
  · intro t args kwargs h
    have hP : extract_placeholders t = [] := extract_nil_of_braceFree h
    have hchars : ∀ c ∈ pyStrip t, c ≠ '{' ∧ c ≠ '}' :=
      fun c hc => h c ((pyStrip_infix_self t).sublist.subset hc)
    unfold promptFormat
    rw [if_neg Bool.false_ne_true, hP]
    show pyFormat (pyStrip t) args kwargs = .ok (pyStrip t)
    exact fmtGo_id args kwargs (pyStrip t) (some 0) hchars

/-- Witness for C10: a brace-free template with outer whitespace formats to
its trimmed text. -/
theorem c10_strip_before_substitution_witness :
    promptFormat "  hi  ".data [] [] false = .ok "hi".data := by
  have h := c10_strip_before_substitution.2 "  hi  ".data [] [] (by decide)
  rw [h]
  decide

/-! ## Claim C1: validated formatting -/

/-- C1 counterexample: the template "\x7b\x7d \x7b\x7d" with one positional argument
passes validation (its placeholder set is the single empty name, which the
first positional argument satisfies), yet format raises an IndexError from
brace substitution instead of returning a result. -/
theorem c1_counterexample :
    extract_placeholders "\x7b\x7d \x7b\x7d".data = [[]]
    ∧ ([] : Chars) ∈ providedKeys (extract_placeholders "\x7b\x7d \x7b\x7d".data)
        ["x".data] []
    ∧ missingVarsOf (extract_placeholders "\x7b\x7d \x7b\x7d".data) ["x".data] [] = []
    ∧ promptFormat "\x7b\x7d \x7b\x7d".data ["x".data] [] false
        = .error (.indexErr "replacement index out of range for positional args tuple") := by
  decide

/-- C1 (amended): validated format fails with the ValueError listing the
sorted missing names exactly when the placeholder set minus the provided
keys is non-empty; when nothing is missing it delegates to standard brace
substitution of the stripped text (which may itself still fail, e.g. with
an IndexError); and a returned result never contains a literal brace-wrapped
group, provided the template has no escaped braces, no format specifier and
brace-free argument values. -/
theorem c1_validated_format :
    (∀ (t : Chars) (args : List Chars) (kwargs : List (Chars × Chars))
        (ns : List Chars),
        promptFormat t args kwargs false = .error (.missingVars ns)
        ↔ (missingVarsOf (extract_placeholders t) args kwargs ≠ []
            ∧ ns = missingVarsOf (extract_placeholders t) args kwargs))
    ∧ (∀ (t : Chars) (args : List Chars) (kwargs : List (Chars × Chars)),
        missingVarsOf (extract_placeholders t) args kwargs = [] →
        promptFormat t args kwargs false = pyFormat (pyStrip t) args kwargs)
    ∧ (∀ (t : Chars) (args : List Chars) (kwargs : List (Chars × Chars))
        (out : Chars),
        promptFormat t args kwargs false = .ok out →
        (∀ v ∈ args, ∀ c ∈ v, c ≠ '{' ∧ c ≠ '}') →
        (∀ p ∈ kwargs, ∀ c ∈ p.2, c ≠ '{' ∧ c ≠ '}') →
        ¬ (['{', '{'] : Chars) <:+: t → ¬ (['}', '}'] : Chars) <:+: t →
        ':' ∉ t → ∀ p : Chars, ¬ ('{' :: p ++ ['}']) <:+: out) := by
  refine ⟨?_, ?_, ?_⟩
  · intro t args kwargs ns
    unfold promptFormat
    rw [if_neg Bool.false_ne_true, validate_eq]
    by_cases hm : missingVarsOf (extract_placeholders t) args kwargs = []
    · rw [if_neg (fun hne => hne hm)]
      show pyFormat (pyStrip t) args kwargs = .error (.missingVars ns) ↔ _
      constructor
      · intro hc
        exact absurd hc (pyFormat_ne_missing _ _ _ _)
      · rintro ⟨hne, _⟩
        exact absurd hm hne
    · rw [if_pos hm]
      show Except.error (FmtErr.missingVars
          (missingVarsOf (extract_placeholders t) args kwargs))
          = .error (.missingVars ns) ↔ _
      constructor
      · intro hc
        injection hc with h2
        injection h2 with h3
        exact ⟨hm, h3.symm⟩
      · rintro ⟨_, hns⟩
        rw [hns]
  · intro t args kwargs hm
    unfold promptFormat
    rw [if_neg Bool.false_ne_true, validate_eq, if_neg (fun hne => hne hm)]
  · intro t args kwargs out hok hargs hkw hO hC hcol p hinf
    unfold promptFormat at hok
    rw [if_neg Bool.false_ne_true] at hok
    cases hv : validate_format_args (extract_placeholders t) args kwargs false with
    | error e => rw [hv] at hok; simp at hok
    | ok u =>
      rw [hv] at hok
      replace hok : pyFormat (pyStrip t) args kwargs = .ok out := hok
      have hbr := pyFormat_braceFree args kwargs hargs hkw (pyStrip t) out
        (fun hi => hO (hi.trans (pyStrip_infix_self t)))
        (fun hi => hC (hi.trans (pyStrip_infix_self t)))
        (fun hm2 => hcol ((pyStrip_infix_self t).sublist.subset hm2)) hok
      have hmem : '{' ∈ out := hinf.sublist.subset (by simp)
      exact (hbr '{' hmem).1 rfl

/-- Witness for C1: a fully supplied template formats, with an unused extra
keyword argument permitted and ignored. -/
theorem c1_validated_format_witness :
    promptFormat "Hello \x7bname\x7d".data []
      [("name".data, "Bob".data), ("extra".data, "Z".data)] false
      = .ok "Hello Bob".data := by
  have h := c1_validated_format.2.1 "Hello \x7bname\x7d".data []
    [("name".data, "Bob".data), ("extra".data, "Z".data)] (by decide)
  rw [h]
  decide

/-! ## Claim C2: partial formatting -/

/-- C2 counterexample: with skipValidation the empty-name placeholder is not
satisfied by the first positional argument (unlike in validation): the
template "Hello \x7b\x7d" with one positional argument comes back unchanged. -/
theorem c2_counterexample :
    ([] : Chars) ∈ extract_placeholders "Hello \x7b\x7d".data
    ∧ promptFormat "Hello \x7b\x7d".data ["Bob".data] [] true
        = .ok "Hello \x7b\x7d".data := by
  decide

/-- C2 (amended): partial formatting always succeeds; a placeholder whose
name the combined lookup holds (positional arguments under their
stringified indices, keyword arguments under their names — the empty name
is not matched to the first positional argument) has its brace-wrapped
occurrence replaced by the value, and a placeholder absent from the lookup
stays verbatim, braces included. -/
theorem c2_partial_format :
    (∀ (t : Chars) (args : List Chars) (kwargs : List (Chars × Chars)),
        promptFormat t args kwargs true = .ok (partialFormat t args kwargs))
    ∧ (∀ (s₁ n s₂ : Chars) (args : List Chars) (kwargs : List (Chars × Chars))
        (v : Chars),
        (∀ c ∈ s₁, c ≠ '{' ∧ c ≠ '}') →
        (∀ c ∈ n, c ≠ '{' ∧ c ≠ '}' ∧ c ≠ ':') →
        (∀ c ∈ s₂, c ≠ '{' ∧ c ≠ '}') →
        pyStrip (s₁ ++ '{' :: (n ++ '}' :: s₂)) = s₁ ++ '{' :: (n ++ '}' :: s₂) →
        lookupAll args kwargs n = some v →
        partialFormat (s₁ ++ '{' :: (n ++ '}' :: s₂)) args kwargs = s₁ ++ v ++ s₂)
    ∧ (∀ (s₁ n s₂ : Chars) (args : List Chars) (kwargs : List (Chars × Chars)),
        (∀ c ∈ s₁, c ≠ '{' ∧ c ≠ '}') →
        (∀ c ∈ n, c ≠ '{' ∧ c ≠ '}' ∧ c ≠ ':') →
        (∀ c ∈ s₂, c ≠ '{' ∧ c ≠ '}') →
        pyStrip (s₁ ++ '{' :: (n ++ '}' :: s₂)) = s₁ ++ '{' :: (n ++ '}' :: s₂) →
        lookupAll args kwargs n = none →
        partialFormat (s₁ ++ '{' :: (n ++ '}' :: s₂)) args kwargs
          = s₁ ++ '{' :: (n ++ '}' :: s₂)) := by
  refine ⟨fun t args kwargs => rfl, ?_, ?_⟩
  · intro s₁ n s₂ args kwargs v h1 hn h2 hstrip hv
    have h := partialFormat_single_step h1 hn h2 hstrip args kwargs
    rw [hv] at h
    exact h
  · intro s₁ n s₂ args kwargs h1 hn h2 hstrip hv
    have h := partialFormat_single_step h1 hn h2 hstrip args kwargs
    rw [hv] at h
    exact h

/-- Witness for C2: a concrete single placeholder supplied by a keyword
argument is replaced in place. -/
theorem c2_partial_format_witness :
    partialFormat ("Hi ".data ++ '{' :: ("x".data ++ '}' :: "!".data)) []
      [("x".data, "Y".data)] = "Hi ".data ++ "Y".data ++ "!".data :=
  c2_partial_format.2.1 "Hi ".data "x".data "!".data [] [("x".data, "Y".data)]
    "Y".data (by decide) (by decide) (by decide) (by decide) (by decide)

end Textprompts